import Mathlib

/-!
Verification of the transaction-graph fraud-analysis engine
(`backend/app/services/graph_service.py` and
`backend/app/services/isomorphism_service.py`).

Shallow embedding conventions:
* Account identifiers are modelled as natural numbers.  The source uses
  strings and orders them lexicographically (`sorted(...)`); the embedding
  is order-isomorphic, with `≤` on `ℕ` standing for the lexicographic
  order on identifier strings.
* Timestamps are modelled as `Option ℤ` (minutes); `none` is pandas `NaT`
  (an unparseable timestamp).  `pd.Timedelta(hours=72)` is `4320` minutes
  and a 1-hour span is `60` minutes.
* `networkx` primitives called by the source (`from_pandas_edgelist`,
  `successors`, `predecessors`, `weakly_connected_components`,
  `ego_graph`, `is_isomorphic`) are external-library calls; they are
  embedded by their documented semantics: a simple directed graph with
  nodes and adjacency in insertion order, breadth-first weakly-connected
  components, undirected-radius ego networks, and exact directed graph
  isomorphism (existence of an edge-preserving bijection).
* Python `dict` is an insertion-ordered association list
  (`List (ℕ × ℕ)`); assignment updates in place or appends.
* Python `set` iteration order is unspecified; wherever the source
  iterates a set, the embedding takes the enumeration as an explicit
  list parameter, and order-independence is proved where claimed.
-/

namespace Ozark

/-- A transaction record.  `transaction_id` is omitted: the engine never
reads it.  `amount` is carried but never read by any detector. -/
structure Txn where
  sender : ℕ
  receiver : ℕ
  timestamp : Option ℤ
  amount : ℤ
deriving DecidableEq, Repr

/-- Append a node if it is not already present (networkx `add_node`:
node containers keep insertion order and ignore re-insertion). -/
def addNode (l : List ℕ) (x : ℕ) : List ℕ :=
  if x ∈ l then l else l ++ [x]

/-- Node list of the graph built by `nx.from_pandas_edgelist`: for each
row, the sender then the receiver is inserted. -/
def nodesAux : List ℕ → List Txn → List ℕ
  | acc, [] => acc
  | acc, t :: ts => nodesAux (addNode (addNode acc t.sender) t.receiver) ts

def nodesOf (txs : List Txn) : List ℕ := nodesAux [] txs

/-- Deduplicated directed edge list in insertion order
(`nx.DiGraph` discards edge multiplicity). -/
def edgesAux : List (ℕ × ℕ) → List Txn → List (ℕ × ℕ)
  | acc, [] => acc
  | acc, t :: ts =>
      edgesAux (if (t.sender, t.receiver) ∈ acc then acc
                else acc ++ [(t.sender, t.receiver)]) ts

def edgesOf (txs : List Txn) : List (ℕ × ℕ) := edgesAux [] txs

/-- `G.successors(a)`: out-neighbours of `a`, in adjacency (edge
insertion) order. -/
def successors (E : List (ℕ × ℕ)) (a : ℕ) : List ℕ :=
  (E.filter (fun e => e.1 == a)).map (fun e => e.2)

/-- `G.predecessors(a)`: in-neighbours of `a`. -/
def predecessors (E : List (ℕ × ℕ)) (a : ℕ) : List ℕ :=
  (E.filter (fun e => e.2 == a)).map (fun e => e.1)

/-- `G.in_degree(a)` in a simple digraph: number of in-edges. -/
def inDeg (E : List (ℕ × ℕ)) (a : ℕ) : ℕ := (predecessors E a).length

/-- `G.out_degree(a)`. -/
def outDeg (E : List (ℕ × ℕ)) (a : ℕ) : ℕ := (successors E a).length

@[simp] lemma mem_successors {E : List (ℕ × ℕ)} {a n : ℕ} :
    n ∈ successors E a ↔ (a, n) ∈ E := by
  simp only [successors, List.mem_map, List.mem_filter, beq_iff_eq]
  constructor
  · rintro ⟨⟨x, y⟩, ⟨hmem, hx⟩, hy⟩
    simp only at hx hy
    subst hx; subst hy; exact hmem
  · intro h; exact ⟨(a, n), ⟨h, rfl⟩, rfl⟩

@[simp] lemma mem_predecessors {E : List (ℕ × ℕ)} {a n : ℕ} :
    n ∈ predecessors E a ↔ (n, a) ∈ E := by
  simp only [predecessors, List.mem_map, List.mem_filter, beq_iff_eq]
  constructor
  · rintro ⟨⟨x, y⟩, ⟨hmem, hy⟩, hx⟩
    simp only at hx hy
    subst hx; subst hy; exact hmem
  · intro h; exact ⟨(n, a), ⟨h, rfl⟩, rfl⟩

@[simp] lemma mem_addNode {l : List ℕ} {y x : ℕ} :
    x ∈ addNode l y ↔ x ∈ l ∨ x = y := by
  simp only [addNode]
  split_ifs with h
  · constructor
    · exact Or.inl
    · rintro (hx | rfl) <;> [exact hx; exact h]
  · simp

lemma mem_nodesAux {acc : List ℕ} {txs : List Txn} {x : ℕ} :
    x ∈ nodesAux acc txs ↔
      x ∈ acc ∨ ∃ t ∈ txs, x = t.sender ∨ x = t.receiver := by
  induction txs generalizing acc with
  | nil => simp [nodesAux]
  | cons t ts ih =>
      simp only [nodesAux, ih, mem_addNode, List.mem_cons]
      constructor
      · rintro (((h | h) | h) | ⟨u, hu, hx⟩)
        · exact Or.inl h
        · exact Or.inr ⟨t, Or.inl rfl, Or.inl h⟩
        · exact Or.inr ⟨t, Or.inl rfl, Or.inr h⟩
        · exact Or.inr ⟨u, Or.inr hu, hx⟩
      · rintro (h | ⟨u, rfl | hu, hx⟩)
        · exact Or.inl (Or.inl (Or.inl h))
        · rcases hx with rfl | rfl
          · exact Or.inl (Or.inl (Or.inr rfl))
          · exact Or.inl (Or.inr rfl)
        · exact Or.inr ⟨u, hu, hx⟩

lemma mem_nodesOf {txs : List Txn} {x : ℕ} :
    x ∈ nodesOf txs ↔ ∃ t ∈ txs, x = t.sender ∨ x = t.receiver := by
  simp [nodesOf, mem_nodesAux]

lemma mem_edgesAux {acc : List (ℕ × ℕ)} {txs : List Txn} {e : ℕ × ℕ} :
    e ∈ edgesAux acc txs ↔
      e ∈ acc ∨ ∃ t ∈ txs, e = (t.sender, t.receiver) := by
  induction txs generalizing acc with
  | nil => simp [edgesAux]
  | cons t ts ih =>
      simp only [edgesAux, ih]
      constructor
      · rintro (h | h)
        · split_ifs at h with h1
          · exact Or.inl h
          · rcases List.mem_append.1 h with h | h
            · exact Or.inl h
            · simp at h; exact Or.inr ⟨t, by simp, h⟩
        · rcases h with ⟨u, hu, he⟩
          exact Or.inr ⟨u, by simp [hu], he⟩
      · rintro (h | ⟨u, hu, he⟩)
        · left; split_ifs <;> simp [h]
        · rcases List.mem_cons.1 hu with rfl | hu
          · left; split_ifs with h1
            · simp [he, h1]
            · simp [he]
          · exact Or.inr ⟨u, hu, he⟩

lemma mem_edgesOf {txs : List Txn} {e : ℕ × ℕ} :
    e ∈ edgesOf txs ↔ ∃ t ∈ txs, e = (t.sender, t.receiver) := by
  simp [edgesOf, mem_edgesAux]

lemma edge_ends_mem_nodesOf {txs : List Txn} {a b : ℕ}
    (h : (a, b) ∈ edgesOf txs) : a ∈ nodesOf txs ∧ b ∈ nodesOf txs := by
  rcases mem_edgesOf.1 h with ⟨t, ht, he⟩
  have h1 : a = t.sender := congrArg Prod.fst he
  have h2 : b = t.receiver := congrArg Prod.snd he
  exact ⟨mem_nodesOf.2 ⟨t, ht, Or.inl h1⟩, mem_nodesOf.2 ⟨t, ht, Or.inr h2⟩⟩

/-! ### Smurfing detection (fan-in / fan-out, 72-hour window)

`df.sort_values("timestamp")` orders rows by timestamp ascending with
`NaT` last; within one `groupby` group the resulting timestamp sequence
is determined by the multiset of timestamps (ties carry equal values),
so the embedding sorts each group's timestamps directly.
`series.diff(periods=9)` yields `ts[i] - ts[i-9]`, `NaT` whenever either
operand is `NaT`, and `NaT <= Timedelta` is `False`. -/

/-- Order used by `sort_values`: timestamps ascending, `NaT` sorted last. -/
def tsLe : Option ℤ → Option ℤ → Prop
  | some a, some b => a ≤ b
  | some _, none => True
  | none, some _ => False
  | none, none => True

instance : DecidableRel tsLe := by
  intro a b
  cases a <;> cases b <;> simp only [tsLe] <;> infer_instance

/-- `ts_i - ts_j ≤ 72h`, `False` when either operand is `NaT`
(a `NaT` operand never produces a valid window difference). -/
def diffLe72 : Option ℤ → Option ℤ → Bool
  | some a, some b => decide (b - a ≤ 4320)
  | _, _ => false

/-- The 10-transaction window test: after sorting, does any position
`i ≥ 9` satisfy `ts[i] - ts[i-9] ≤ 72h`? -/
def smurfHit (ts : List (Option ℤ)) : Bool :=
  let s := ts.insertionSort tsLe
  ((s.drop 9).zip s).any (fun p => diffLe72 p.2 p.1)

/-- Rows of the DataFrame whose `receiver_id` is `r` (one `groupby` group). -/
def incoming (txs : List Txn) (r : ℕ) : List Txn :=
  txs.filter (fun t => t.receiver == r)

/-- Rows whose `sender_id` is `s`. -/
def outgoing (txs : List Txn) (s : ℕ) : List Txn :=
  txs.filter (fun t => t.sender == s)

/-- Is receiver `r` flagged `fan_in`? (`len(group) >= 10` and some
10-transaction window within 72 hours.) -/
def fanInFlag (txs : List Txn) (r : ℕ) : Bool :=
  decide (10 ≤ (incoming txs r).length) &&
    smurfHit ((incoming txs r).map (fun t => t.timestamp))

/-- Is sender `s` flagged `fan_out`? -/
def fanOutFlag (txs : List Txn) (s : ℕ) : Bool :=
  decide (10 ≤ (outgoing txs s).length) &&
    smurfHit ((outgoing txs s).map (fun t => t.timestamp))

/-- The `fan_in` flag set.  Every flagged receiver occurs in some row,
hence is a graph node, so filtering the node list loses nothing. -/
def fanInSet (txs : List Txn) : List ℕ :=
  (nodesOf txs).filter (fanInFlag txs)

/-- The `fan_out` flag set. -/
def fanOutSet (txs : List Txn) : List ℕ :=
  (nodesOf txs).filter (fanOutFlag txs)

/-- The four pattern flag sets returned by `analyze_networks`.  Python
sets are represented as duplicate-free lists consumed only through
membership, sorted enumeration, and conversion to `Finset`. -/
structure FlagSets where
  cycles : List ℕ
  fan_in : List ℕ
  fan_out : List ℕ
  shells : List ℕ
deriving DecidableEq, Repr

/-- Ascending sort (`sorted(...)` on a set of account ids). -/
def sortNat (l : List ℕ) : List ℕ := l.insertionSort (· ≤ ·)

/-! ### Cycle detection (bounded DFS, depth 3–5)

The source keeps an explicit stack of `(current, path-node-set, depth)`
triples, pops from the end, and appends children in successor order, so
the last successor is explored first.  The embedding keeps the stack
top at the list head; children are therefore reversed before being
prepended.  A popped state triggers a cycle exactly when its depth is
at least 3 and the start node is among the current node's successors
(the source's per-successor scan with `break` discards any states pushed
earlier in the same scan together with the rest of the stack). -/

/-- A DFS stack entry: current node, nodes on this path, depth. -/
abbrev CState := ℕ × List ℕ × ℕ

/-- The states pushed when a popped state does not close a cycle:
successors not already on the path, at depth below 5. -/
def pushChildren (E : List (ℕ × ℕ)) (c : ℕ) (p : List ℕ) (d : ℕ) :
    List CState :=
  if d < 5 then
    (((successors E c).filter (fun n => decide (n ∉ p))).map
      (fun n => (n, n :: p, d + 1))).reverse
  else []

/-- Termination measure for the DFS loop. -/
def stackW (B : ℕ) (stack : List CState) : ℕ :=
  (stack.map (fun st => (B + 1) ^ (6 - st.2.2))).sum

lemma pushChildren_lt (E : List (ℕ × ℕ)) (c : ℕ) (p : List ℕ) (d : ℕ) :
    stackW E.length (pushChildren E c p d) < (E.length + 1) ^ (6 - d) := by
  set B := E.length with hB
  have hpos : ∀ k : ℕ, 0 < (B + 1) ^ k := fun k => Nat.pos_pow_of_pos k (Nat.succ_pos B)
  unfold pushChildren
  split_ifs with hd
  · set M := (successors E c).filter (fun n => decide (n ∉ p)) with hM
    have hlen : M.length ≤ B := by
      calc M.length ≤ (successors E c).length := List.length_filter_le _ _
        _ = (E.filter (fun e => e.1 == c)).length := by
              simp [successors]
        _ ≤ E.length := List.length_filter_le _ _
    have hmap : stackW B ((M.map (fun n => (n, n :: p, d + 1))).reverse)
        = M.length * (B + 1) ^ (6 - (d + 1)) := by
      unfold stackW
      rw [List.map_reverse, List.sum_reverse, List.map_map]
      have : ((fun (st : CState) => (B + 1) ^ (6 - st.2.2)) ∘
          (fun n => ((n, n :: p, d + 1) : CState)))
          = fun _ => (B + 1) ^ (6 - (d + 1)) := rfl
      rw [this, List.map_const', List.sum_replicate, smul_eq_mul]
    rw [hmap]
    have h6 : 6 - d = (5 - d) + 1 := by omega
    have h5 : 6 - (d + 1) = 5 - d := by omega
    calc M.length * (B + 1) ^ (6 - (d + 1))
        ≤ B * (B + 1) ^ (5 - d) := by rw [h5]; exact Nat.mul_le_mul_right _ hlen
      _ < (B + 1) * (B + 1) ^ (5 - d) :=
          Nat.mul_lt_mul_of_lt_of_le (Nat.lt_succ_self B) (le_refl _) (hpos _)
      _ = (B + 1) ^ (6 - d) := by rw [h6, pow_succ, mul_comm]
  · simp only [stackW, List.map_nil, List.sum_nil]
    exact hpos (6 - d)

/-- The DFS loop for one start node `s`: pop states until the stack is
empty or a cycle back to `s` of depth ≥ 3 is found, in which case the
popped path is returned to be flagged. -/
def dfsFrom (E : List (ℕ × ℕ)) (s : ℕ) : List CState → Bool × List ℕ
  | [] => (false, [])
  | (c, p, d) :: rest =>
      if 3 ≤ d ∧ s ∈ successors E c then (true, p)
      else dfsFrom E s (pushChildren E c p d ++ rest)
termination_by stack => stackW E.length stack
decreasing_by
  simp only [stackW, List.map_append, List.sum_append, List.map_cons,
    List.sum_cons]
  have h := pushChildren_lt E c p d
  simp only [stackW] at h
  omega

/-- The outer scan: each graph node not yet flagged starts a DFS; a
found cycle path is flagged wholesale (`suspect_cycle_nodes.update`). -/
def cycleScan (E : List (ℕ × ℕ)) : List ℕ → List ℕ → List ℕ
  | [], acc => acc
  | v :: vs, acc =>
      if v ∈ acc then cycleScan E vs acc
      else if (dfsFrom E v [(v, [v], 1)]).1 then
        cycleScan E vs ((dfsFrom E v [(v, [v], 1)]).2.foldl addNode acc)
      else cycleScan E vs acc

/-- The `cycles` flag set of `analyze_networks`. -/
def cyclesOf (txs : List Txn) : List ℕ :=
  cycleScan (edgesOf txs) (nodesOf txs) []

/-! ### Layered-shell detection

`node_counts` counts each account's occurrences as sender plus as
receiver; candidates have a count in `[2,3]`.  The source iterates the
candidate *set* (unspecified order), so the enumeration is an explicit
parameter here.  The source's `if node not in G: continue` guard is
vacuous for genuine candidates (a count ≥ 2 implies the account occurs
in some row and is hence a node). -/

/-- Total transaction count of an account (sender plus receiver roles). -/
def txCount (txs : List Txn) (a : ℕ) : ℕ :=
  (outgoing txs a).length + (incoming txs a).length

/-- Is `a` a shell candidate (count in `[2,3]`)? -/
def isShellCand (txs : List Txn) (a : ℕ) : Bool :=
  decide (2 ≤ txCount txs a) && decide (txCount txs a ≤ 3)

/-- The candidate set enumerated in node order. -/
def shellCandList (txs : List Txn) : List ℕ :=
  (nodesOf txs).filter (isShellCand txs)

/-- `successors.intersection(shell_candidates)` for one candidate. -/
def shellInter (txs : List Txn) (a : ℕ) : List ℕ :=
  (successors (edgesOf txs) a).filter (isShellCand txs)

/-- Processing one candidate: if its successor set meets the candidate
set, flag the candidate and that intersection. -/
def shellStep (txs : List Txn) (acc : List ℕ) (a : ℕ) : List ℕ :=
  if shellInter txs a = [] then acc
  else (shellInter txs a).foldl addNode (addNode acc a)

/-- The `shells` flag set produced by iterating the candidates in the
given order. -/
def shellsFold (txs : List Txn) (order : List ℕ) : List ℕ :=
  order.foldl (shellStep txs) []

/-- The `shells` flag set (canonical enumeration). -/
def shellsOf (txs : List Txn) : List ℕ :=
  shellsFold txs (shellCandList txs)

/-- `analyze_networks` flag output, with the shell-candidate iteration
order explicit. -/
def analyzeFlagsWith (txs : List Txn) (shellOrder : List ℕ) : FlagSets :=
  { cycles := cyclesOf txs
    fan_in := fanInSet txs
    fan_out := fanOutSet txs
    shells := shellsFold txs shellOrder }

/-- `analyze_networks` flag output. -/
def analyzeFlags (txs : List Txn) : FlagSets :=
  analyzeFlagsWith txs (shellCandList txs)

/-! ### Weakly connected components (networkx semantics)

`nx.weakly_connected_components` on an induced subgraph: breadth-first
traversal of the symmetrised adjacency restricted to the induced node
set, sources taken in node order, skipping nodes already seen.  The
source consumes components as *sets* (sorted or counted), so any
traversal computing the same member set is a faithful embedding. -/

/-- Undirected neighbours of `f` inside the induced node set `S`. -/
def unbrs (E : List (ℕ × ℕ)) (S : List ℕ) (f : ℕ) : List ℕ :=
  (successors E f ++ predecessors E f).filter (fun n => decide (n ∈ S))

/-- One weak-adjacency step inside the induced subgraph on `S`. -/
def wadj (E : List (ℕ × ℕ)) (S : List ℕ) (a b : ℕ) : Prop :=
  ((a, b) ∈ E ∨ (b, a) ∈ E) ∧ a ∈ S ∧ b ∈ S

lemma wadj_symm {E : List (ℕ × ℕ)} {S : List ℕ} :
    Symmetric (wadj E S) := by
  rintro a b ⟨he, ha, hb⟩
  exact ⟨he.symm, hb, ha⟩

lemma mem_unbrs {E : List (ℕ × ℕ)} {S : List ℕ} {f n : ℕ} :
    n ∈ unbrs E S f ↔ ((f, n) ∈ E ∨ (n, f) ∈ E) ∧ n ∈ S := by
  simp only [unbrs, List.mem_filter, List.mem_append, mem_successors,
    mem_predecessors, decide_eq_true_eq]

lemma wadj_mem_unbrs {E : List (ℕ × ℕ)} {S : List ℕ} {f n : ℕ}
    (h : wadj E S f n) : n ∈ unbrs E S f :=
  mem_unbrs.2 ⟨h.1, h.2.2⟩

/-- The not-yet-visited part of `S` (the termination measure of `bfs`). -/
def notVisited (S visited : List ℕ) : List ℕ :=
  S.filter (fun x => decide (x ∉ visited))

lemma notVisited_lt (S visited : List ℕ) (f : ℕ)
    (hfS : f ∈ S) (hfv : f ∉ visited) :
    (notVisited S (f :: visited)).length < (notVisited S visited).length := by
  induction S with
  | nil => cases hfS
  | cons a S ih =>
      by_cases haf : a = f
      · subst haf
        have h1 : notVisited (a :: S) (a :: visited) = notVisited S (a :: visited) := by
          simp [notVisited, List.filter_cons]
        have h2 : notVisited (a :: S) visited = a :: notVisited S visited := by
          simp [notVisited, List.filter_cons, hfv]
        rw [h1, h2]
        have hmono : (notVisited S (a :: visited)).length ≤ (notVisited S visited).length :=
          (List.monotone_filter_right S (by
            intro x hx
            simp only [decide_eq_true_eq, List.mem_cons, not_or] at hx ⊢
            exact hx.2)).length_le
        simpa using Nat.lt_succ_of_le hmono
      · have hfS' : f ∈ S := by
          rcases List.mem_cons.1 hfS with h | h
          · exact absurd h.symm haf
          · exact h
        by_cases hav : a ∈ visited
        · have e1 : notVisited (a :: S) (f :: visited) = notVisited S (f :: visited) := by
            simp [notVisited, List.filter_cons, hav]
          have e2 : notVisited (a :: S) visited = notVisited S visited := by
            simp [notVisited, List.filter_cons, hav]
          rw [e1, e2]
          exact ih hfS'
        · have e1 : notVisited (a :: S) (f :: visited)
              = a :: notVisited S (f :: visited) := by
            simp [notVisited, List.filter_cons, hav, haf]
          have e2 : notVisited (a :: S) visited = a :: notVisited S visited := by
            simp [notVisited, List.filter_cons, hav]
          rw [e1, e2]
          exact Nat.succ_lt_succ (ih hfS')

/-- Breadth-first traversal of the weak-connectivity relation inside
`S`: pop the frontier head, record it if new and inside `S`, push its
undirected neighbours. -/
def bfs (E : List (ℕ × ℕ)) (S : List ℕ) (frontier visited : List ℕ) :
    List ℕ :=
  match frontier with
  | [] => visited
  | f :: fr =>
      if h : f ∈ visited ∨ f ∉ S then bfs E S fr visited
      else bfs E S (fr ++ unbrs E S f) (f :: visited)
termination_by ((notVisited S visited).length, frontier.length)
decreasing_by
  · apply Prod.Lex.right
    simp
  · apply Prod.Lex.left
    push_neg at h
    exact notVisited_lt S visited f h.2 h.1

/-- The weakly connected component of `v` inside `S`. -/
def wcomp (E : List (ℕ × ℕ)) (S : List ℕ) (v : ℕ) : List ℕ :=
  bfs E S [v] []

/-- The component list: sources in `S`-order, skipping seen nodes. -/
def wccAux (E : List (ℕ × ℕ)) (S : List ℕ) : List ℕ → List ℕ → List (List ℕ)
  | [], _ => []
  | v :: vs, seen =>
      if v ∈ seen then wccAux E S vs seen
      else wcomp E S v :: wccAux E S vs (seen ++ wcomp E S v)

/-- `nx.weakly_connected_components(G.subgraph(S))`. -/
def wccList (E : List (ℕ × ℕ)) (S : List ℕ) : List (List ℕ) :=
  wccAux E S S []

/-! ### Risk scoring (`assign_risk_scores`) -/

/-- One row of the risk DataFrame. -/
structure RiskEntry where
  account_id : ℕ
  score : ℕ
  risk_level : String
  reasons : String
deriving DecidableEq, Repr

/-- The raw additive score of a node (before the `min(score, 100)` cap);
the source derives `risk_level` from this raw value. -/
def rawScore (fl : FlagSets) (n : ℕ) : ℕ :=
  (if n ∈ fl.cycles then 40 else 0) +
  (if n ∈ fl.fan_in then 35 else 0) +
  (if n ∈ fl.fan_out then 35 else 0) +
  (if n ∈ fl.shells then 25 else 0)

/-- The reason labels, tested in the fixed order cycle, fan-in, fan-out,
shell. -/
def reasonList (fl : FlagSets) (n : ℕ) : List String :=
  (if n ∈ fl.cycles then ["Cycle (Ring)"] else []) ++
  (if n ∈ fl.fan_in then ["Fan-in (Aggregator)"] else []) ++
  (if n ∈ fl.fan_out then ["Fan-out (Disperser)"] else []) ++
  (if n ∈ fl.shells then ["Shell Layer"] else [])

/-- One row of `assign_risk_scores`. -/
def riskRow (fl : FlagSets) (n : ℕ) : RiskEntry :=
  { account_id := n
    score := min (rawScore fl n) 100
    risk_level :=
      if 40 ≤ rawScore fl n then "High"
      else if 0 < rawScore fl n then "Medium" else "Low"
    reasons :=
      if reasonList fl n = [] then "Normal"
      else String.intercalate ", " (reasonList fl n) }

/-- `assign_risk_scores`: one row per node, in node order.  (The
source's empty-node guard returns an empty DataFrame, which is the
image of the empty list.) -/
def assign_risk_scores (nodes : List ℕ) (fl : FlagSets) : List RiskEntry :=
  nodes.map (riskRow fl)

/-! ### Structured output builder (`build_structured_output`) -/

/-- A fraud ring.  The source's `ring_id` string is
`"RING_%03d" % ring_index` (see `ringIdStr`); the embedding carries the
counter value itself so that ring identity is the counter. -/
structure FraudRing where
  ring_index : ℕ
  member_accounts : List ℕ
  pattern_type : String
  risk_score : ℚ
deriving DecidableEq, Repr

/-- `"RING_%03d"` rendering of a ring counter. -/
def ringIdStr (n : ℕ) : String :=
  "RING_" ++ (if n < 10 then "00" else if n < 100 then "0" else "") ++ toString n

/-- A suspicious-account row.  The `detected_patterns` label list
(including the cycle-length probe via `nx.simple_cycles`) is
presentation metadata inspected by no verified property and is not
modelled; `ring_id` carries the ring counter (`ringIdStr` renders it). -/
structure SuspAccount where
  account_id : ℕ
  suspicion_score : ℚ
  ring_id : Option ℕ
deriving DecidableEq, Repr

structure Summary where
  total_accounts_analyzed : ℕ
  suspicious_accounts_flagged : ℕ
  fraud_rings_detected : ℕ
  processing_time_seconds : ℚ
deriving DecidableEq, Repr

structure BuildOutput where
  suspicious_accounts : List SuspAccount
  fraud_rings : List FraudRing
  summary : Summary
  account_ring_map : List (ℕ × ℕ)
deriving DecidableEq, Repr

/-- `risk_lookup.get(a, {}).get("score", 0)`. -/
def scoreOf (rows : List RiskEntry) (a : ℕ) : ℕ :=
  match rows.find? (fun r => r.account_id == a) with
  | some r => r.score
  | none => 0

/-- Python `round(x, 1)` on the mean member score, as a rational
(round half away from even is irrelevant here: no verified property
inspects this value). -/
def round1 (q : ℚ) : ℚ := (round (q * 10) : ℤ) / 10

/-- Python `round(x, 2)` for the processing time. -/
def round2 (q : ℚ) : ℚ := (round (q * 100) : ℤ) / 100

/-- Mean member risk score, rounded to one decimal. -/
def ringScore (rows : List RiskEntry) (members : List ℕ) : ℚ :=
  if members = [] then 0
  else round1 (((members.map (scoreOf rows)).sum : ℚ) / members.length)

/-- Build one ring record from a member set given as a duplicate-free
list (members sorted ascending, as `sorted(...)` in the source). -/
def mkRing (rows : List RiskEntry) (idx : ℕ) (ptype : String)
    (mems : List ℕ) : FraudRing :=
  { ring_index := idx
    member_accounts := sortNat mems
    pattern_type := ptype
    risk_score := ringScore rows (sortNat mems) }

/-- Python dict assignment `m[k] = v` on an insertion-ordered map. -/
def dictSet (m : List (ℕ × ℕ)) (k v : ℕ) : List (ℕ × ℕ) :=
  if (m.lookup k).isSome then m.map (fun p => if p.1 = k then (k, v) else p)
  else m ++ [(k, v)]

/-- The guarded write `if m not in account_ring_map: ...[m] = rid`. -/
def dictSetIfAbsent (m : List (ℕ × ℕ)) (k v : ℕ) : List (ℕ × ℕ) :=
  if (m.lookup k).isSome then m else dictSet m k v

/-- Mutable assembler state: ring list, ring counter, account→ring map. -/
structure BuildState where
  rings : List FraudRing
  counter : ℕ
  ringMap : List (ℕ × ℕ)
deriving DecidableEq, Repr

def emptyBuildState : BuildState := ⟨[], 0, []⟩

/-- A map write: phase 1 assigns unconditionally (`guarded = false`),
later phases only when the account is unclaimed. -/
def mapWrite (guarded : Bool) (idx : ℕ) (m : List (ℕ × ℕ)) (a : ℕ) :
    List (ℕ × ℕ) :=
  if guarded then dictSetIfAbsent m a idx else dictSet m a idx

/-- Processing one weakly-connected component: components of ≥ 2
members become a ring whose members are all map-written. -/
def componentStep (rows : List RiskEntry) (ptype : String) (guarded : Bool)
    (st : BuildState) (comp : List ℕ) : BuildState :=
  if 2 ≤ comp.dedup.length then
    { rings := st.rings ++ [mkRing rows (st.counter + 1) ptype comp.dedup]
      counter := st.counter + 1
      ringMap := (sortNat comp.dedup).foldl
        (mapWrite guarded (st.counter + 1)) st.ringMap }
  else st

/-- Component-based phases (phase 1, cycles: unconditional writes;
phase 4, shells: writes guarded on absence). -/
def componentPhase (E : List (ℕ × ℕ)) (rows : List RiskEntry)
    (ptype : String) (guarded : Bool) (S : List ℕ) (st : BuildState) :
    BuildState :=
  (wccList E S).foldl (componentStep rows ptype guarded) st

/-- The fan cluster of an account: itself plus its neighbours
(successors for fan-out, predecessors for fan-in), as a set. -/
def fanCluster (E : List (ℕ × ℕ)) (useSucc : Bool) (a : ℕ) : List ℕ :=
  (a :: (if useSucc then successors E a else predecessors E a)).dedup

/-- Processing one flagged fan account: a ring forms when the cluster
has ≥ 3 members and the account itself is unclaimed; writes are guarded
on absence. -/
def fanStep (E : List (ℕ × ℕ)) (rows : List RiskEntry) (ptype : String)
    (useSucc : Bool) (st : BuildState) (a : ℕ) : BuildState :=
  if 3 ≤ (fanCluster E useSucc a).length
      ∧ (st.ringMap.lookup a).isNone then
    { rings := st.rings ++
        [mkRing rows (st.counter + 1) ptype (fanCluster E useSucc a)]
      counter := st.counter + 1
      ringMap := (sortNat (fanCluster E useSucc a)).foldl
        (mapWrite true (st.counter + 1)) st.ringMap }
  else st

/-- Fan phases (phase 2, fan-in over predecessors; phase 3, fan-out over
successors): flagged accounts iterated in ascending order. -/
def fanPhase (E : List (ℕ × ℕ)) (rows : List RiskEntry) (ptype : String)
    (useSucc : Bool) (flagged : List ℕ) (st : BuildState) : BuildState :=
  (sortNat flagged).foldl (fanStep E rows ptype useSucc) st

/-- Suspicious-account rows: positive-score accounts in row order, then
a stable sort by score descending (Python `list.sort` is stable). -/
def suspiciousOf (rows : List RiskEntry) (m : List (ℕ × ℕ)) :
    List SuspAccount :=
  ((rows.filter (fun r => decide (0 < r.score))).map
    (fun r => { account_id := r.account_id
                suspicion_score := (r.score : ℚ)
                ring_id := m.lookup r.account_id : SuspAccount })).insertionSort
    (fun x y => y.suspicion_score ≤ x.suspicion_score)

/-- The assembler state after phase 1 (cycle rings). -/
def buildState1 (nodes : List ℕ) (E : List (ℕ × ℕ)) (fl : FlagSets)
    (rows : List RiskEntry) : BuildState :=
  componentPhase E rows "cycle" false
    (nodes.filter (fun n => decide (n ∈ fl.cycles))) emptyBuildState

/-- The assembler state after phase 2 (fan-in rings). -/
def buildState2 (nodes : List ℕ) (E : List (ℕ × ℕ)) (fl : FlagSets)
    (rows : List RiskEntry) : BuildState :=
  fanPhase E rows "fan_in" false fl.fan_in (buildState1 nodes E fl rows)

/-- The assembler state after phase 3 (fan-out rings). -/
def buildState3 (nodes : List ℕ) (E : List (ℕ × ℕ)) (fl : FlagSets)
    (rows : List RiskEntry) : BuildState :=
  fanPhase E rows "fan_out" true fl.fan_out (buildState2 nodes E fl rows)

/-- The assembler state after phase 4 (shell rings). -/
def buildState4 (nodes : List ℕ) (E : List (ℕ × ℕ)) (fl : FlagSets)
    (rows : List RiskEntry) : BuildState :=
  componentPhase E rows "shell_layering" true
    (nodes.filter (fun n => decide (n ∈ fl.shells)))
    (buildState3 nodes E fl rows)

/-- `build_structured_output`: the four ring phases in precedence order,
then the suspicious-account list and summary.  (The source's
`if flags[...]:` non-emptiness guards before phases 1 and 4 are
redundant: an empty induced node set yields no components.) -/
def build_structured_output (nodes : List ℕ) (E : List (ℕ × ℕ))
    (fl : FlagSets) (rows : List RiskEntry) (pt : ℚ) : BuildOutput :=
  { suspicious_accounts := suspiciousOf rows (buildState4 nodes E fl rows).ringMap
    fraud_rings := (buildState4 nodes E fl rows).rings
    summary := { total_accounts_analyzed := nodes.length
                 suspicious_accounts_flagged :=
                   (suspiciousOf rows (buildState4 nodes E fl rows).ringMap).length
                 fraud_rings_detected := (buildState4 nodes E fl rows).rings.length
                 processing_time_seconds := round2 pt }
    account_ring_map := (buildState4 nodes E fl rows).ringMap }

/-- The full pipeline with the shell-candidate enumeration explicit. -/
def runPipelineWith (txs : List Txn) (shellOrder : List ℕ) (pt : ℚ) :
    FlagSets × List RiskEntry × BuildOutput :=
  let fl := analyzeFlagsWith txs shellOrder
  let rows := assign_risk_scores (nodesOf txs) fl
  (fl, rows, build_structured_output (nodesOf txs) (edgesOf txs) fl rows pt)

/-- The full pipeline `analyze_networks` → `assign_risk_scores` →
`build_structured_output`. -/
def runPipeline (txs : List Txn) (pt : ℚ) :
    FlagSets × List RiskEntry × BuildOutput :=
  runPipelineWith txs (shellCandList txs) pt

/-- A concrete fixture: a 3-cycle `5 → 6 → 7 → 5` plus nine further
simultaneous payments `10 → 5`, so account `5` receives ten
transactions within 72 hours and is flagged both `cycles` and
`fan_in`. -/
def c1txs : List Txn :=
  [⟨5, 6, some 0, 1⟩, ⟨6, 7, some 0, 1⟩, ⟨7, 5, some 0, 1⟩] ++
    List.replicate 9 ⟨10, 5, some 0, 1⟩

/-! ### Structural-clone search (`find_structural_clones`) -/

/-- One undirected expansion step from a node set in the whole graph
(`dedup` keeps the result duplicate-free; only membership matters). -/
def egoExpand (E : List (ℕ × ℕ)) (s : List ℕ) : List ℕ :=
  (s ++ s.flatMap (fun v => successors E v ++ predecessors E v)).dedup

/-- Nodes of `nx.ego_graph(G, t, radius=hops, undirected=True)`: nodes
within undirected distance `hops` of `t`, as a duplicate-free list. -/
def egoNodes (E : List (ℕ × ℕ)) (t : ℕ) (hops : ℕ) : List ℕ :=
  (egoExpand E)^[hops] [t]

/-- Directed edges of the induced subgraph on a node set. -/
def inducedEdges (E : List (ℕ × ℕ)) (s : List ℕ) : List (ℕ × ℕ) :=
  E.filter (fun e => decide (e.1 ∈ s) && decide (e.2 ∈ s))

/-- All ways to insert an element into a list. -/
def inserts (x : ℕ) : List ℕ → List (List ℕ)
  | [] => [[x]]
  | y :: ys => (x :: y :: ys) :: (inserts x ys).map (fun l => y :: l)

/-- All permutations of a list: the candidate node bijections that the
backtracking (VF2) matcher searches. -/
def perms : List ℕ → List (List ℕ)
  | [] => [[]]
  | x :: xs => ((perms xs).map (inserts x)).flatten

/-- A zipped node correspondence, as a function. -/
def zipFun (dom img : List ℕ) (a : ℕ) : ℕ :=
  ((dom.zip img).lookup a).getD a

/-- Does the correspondence `dom[i] ↦ img[i]` preserve edges and
non-edges, respecting direction? -/
def permOk (n1 : List ℕ) (E1 E2 : List (ℕ × ℕ)) (img : List ℕ) : Bool :=
  n1.all (fun a => n1.all (fun b =>
    decide ((a, b) ∈ E1) == decide ((zipFun n1 img a, zipFun n1 img b) ∈ E2)))

/-- `nx.is_isomorphic` on two induced subgraphs of equal node count:
some bijection maps edges onto edges respecting direction. -/
def isIso (n1 : List ℕ) (E1 : List (ℕ × ℕ)) (n2 : List ℕ)
    (E2 : List (ℕ × ℕ)) : Bool :=
  (perms n2).any (permOk n1 E1 E2)

/-- The per-candidate body of the search loop: degree pre-filter, then
the node-count check and the isomorphism test; a match unions the
candidate ego network into the accumulator. -/
def cloneStep (E : List (ℕ × ℕ)) (t : ℕ) (hops : ℕ)
    (acc : Finset ℕ × Finset (ℕ × ℕ)) (n : ℕ) :
    Finset ℕ × Finset (ℕ × ℕ) :=
  if inDeg E n = inDeg E t ∧ outDeg E n = outDeg E t then
    if (egoNodes E n hops).length = (egoNodes E t hops).length ∧
        isIso (sortNat (egoNodes E t hops))
          (inducedEdges E (egoNodes E t hops))
          (sortNat (egoNodes E n hops))
          (inducedEdges E (egoNodes E n hops)) then
      (acc.1 ∪ (egoNodes E n hops).toFinset,
       acc.2 ∪ (inducedEdges E (egoNodes E n hops)).toFinset)
    else acc
  else acc

/-- `find_structural_clones`: absent target short-circuits to empty
results; otherwise every node passing the degree pre-filter and the
node-count check is isomorphism-tested and matching ego networks are
unioned.  The Python return values are `list(...)` of sets, so the
embedding returns the sets themselves. -/
def find_structural_clones (nodes : List ℕ) (E : List (ℕ × ℕ))
    (t : ℕ) (hops : ℕ) : Finset ℕ × Finset (ℕ × ℕ) :=
  if t ∈ nodes then nodes.foldl (cloneStep E t hops) (∅, ∅)
  else (∅, ∅)

/-! ## Weak-connectivity properties of the BFS

The traversal result is exactly the weak-connectivity class of the
source inside `S`: monotone in `visited`, contained in `visited ∪ S`,
duplicate-free, closed under `wadj`, and reaching exactly the
`Relation.ReflTransGen (wadj E S)`-reachable nodes. -/

lemma bfs_mono (E : List (ℕ × ℕ)) (S : List ℕ) :
    ∀ frontier visited, ∀ x ∈ visited, x ∈ bfs E S frontier visited := by
  refine bfs.induct E S
    (fun frontier visited => ∀ x ∈ visited, x ∈ bfs E S frontier visited)
    ?_ ?_ ?_
  · intro visited x hx
    rw [bfs]
    exact hx
  · intro visited f fr h ih x hx
    rw [bfs, dif_pos h]
    exact ih x hx
  · intro visited f fr h ih x hx
    rw [bfs, dif_neg h]
    exact ih x (List.mem_cons_of_mem _ hx)

lemma bfs_subset (E : List (ℕ × ℕ)) (S : List ℕ) :
    ∀ frontier visited, ∀ x ∈ bfs E S frontier visited,
      x ∈ visited ∨ x ∈ S := by
  refine bfs.induct E S
    (fun frontier visited => ∀ x ∈ bfs E S frontier visited,
      x ∈ visited ∨ x ∈ S) ?_ ?_ ?_
  · intro visited x hx
    rw [bfs] at hx
    exact Or.inl hx
  · intro visited f fr h ih x hx
    rw [bfs, dif_pos h] at hx
    exact ih x hx
  · intro visited f fr h ih x hx
    rw [bfs, dif_neg h] at hx
    push_neg at h
    rcases ih x hx with hv | hS
    · rcases List.mem_cons.1 hv with rfl | hv'
      · exact Or.inr h.2
      · exact Or.inl hv'
    · exact Or.inr hS

lemma bfs_nodup (E : List (ℕ × ℕ)) (S : List ℕ) :
    ∀ frontier visited, visited.Nodup → (bfs E S frontier visited).Nodup := by
  refine bfs.induct E S
    (fun frontier visited =>
      visited.Nodup → (bfs E S frontier visited).Nodup) ?_ ?_ ?_
  · intro visited hnd
    rw [bfs]
    exact hnd
  · intro visited f fr h ih hnd
    rw [bfs, dif_pos h]
    exact ih hnd
  · intro visited f fr h ih hnd
    rw [bfs, dif_neg h]
    push_neg at h
    exact ih (List.nodup_cons.2 ⟨h.1, hnd⟩)

lemma bfs_absorbs (E : List (ℕ × ℕ)) (S : List ℕ) :
    ∀ frontier visited, ∀ x ∈ frontier, x ∈ S →
      x ∈ bfs E S frontier visited := by
  refine bfs.induct E S
    (fun frontier visited => ∀ x ∈ frontier, x ∈ S →
      x ∈ bfs E S frontier visited) ?_ ?_ ?_
  · intro visited x hx
    cases hx
  · intro visited f fr h ih x hx hxS
    rw [bfs, dif_pos h]
    rcases List.mem_cons.1 hx with rfl | hx'
    · rcases h with hv | hns
      · exact bfs_mono E S fr visited x hv
      · exact absurd hxS hns
    · exact ih x hx' hxS
  · intro visited f fr h ih x hx hxS
    rw [bfs, dif_neg h]
    rcases List.mem_cons.1 hx with rfl | hx'
    · exact bfs_mono E S _ _ x (List.mem_cons_self _ _)
    · exact ih x (List.mem_append.2 (Or.inl hx')) hxS

lemma bfs_sound (E : List (ℕ × ℕ)) (S : List ℕ) (P : ℕ → Prop)
    (hP : ∀ a b, P a → wadj E S a b → P b) :
    ∀ frontier visited, (∀ x ∈ frontier, P x) → (∀ x ∈ visited, P x) →
      ∀ x ∈ bfs E S frontier visited, P x := by
  refine bfs.induct E S
    (fun frontier visited => (∀ x ∈ frontier, P x) → (∀ x ∈ visited, P x) →
      ∀ x ∈ bfs E S frontier visited, P x) ?_ ?_ ?_
  · intro visited _ hv x hx
    rw [bfs] at hx
    exact hv x hx
  · intro visited f fr h ih hf hv x hx
    rw [bfs, dif_pos h] at hx
    exact ih (fun z hz => hf z (List.mem_cons_of_mem _ hz)) hv x hx
  · intro visited f fr h ih hf hv x hx
    rw [bfs, dif_neg h] at hx
    push_neg at h
    have hPf : P f := hf f (List.mem_cons_self _ _)
    refine ih ?_ ?_ x hx
    · intro z hz
      rcases List.mem_append.1 hz with hz' | hz'
      · exact hf z (List.mem_cons_of_mem _ hz')
      · rcases mem_unbrs.1 hz' with ⟨he, hzS⟩
        exact hP f z hPf ⟨he, h.2, hzS⟩
    · intro z hz
      rcases List.mem_cons.1 hz with rfl | hz'
      · exact hPf
      · exact hv z hz'

lemma bfs_closed (E : List (ℕ × ℕ)) (S : List ℕ) :
    ∀ frontier visited,
      (∀ u ∈ visited, ∀ w, wadj E S u w → w ∈ visited ∨ w ∈ frontier) →
      ∀ u ∈ bfs E S frontier visited, ∀ w, wadj E S u w →
        w ∈ bfs E S frontier visited := by
  refine bfs.induct E S
    (fun frontier visited =>
      (∀ u ∈ visited, ∀ w, wadj E S u w → w ∈ visited ∨ w ∈ frontier) →
      ∀ u ∈ bfs E S frontier visited, ∀ w, wadj E S u w →
        w ∈ bfs E S frontier visited) ?_ ?_ ?_
  · intro visited hinv u hu w hw
    rw [bfs] at hu ⊢
    rcases hinv u hu w hw with h | h
    · exact h
    · cases h
  · intro visited f fr h ih hinv u hu w hw
    rw [bfs, dif_pos h] at hu ⊢
    refine ih ?_ u hu w hw
    intro u' hu' w' hw'
    rcases hinv u' hu' w' hw' with h' | h'
    · exact Or.inl h'
    · rcases List.mem_cons.1 h' with rfl | h''
      · rcases h with hv | hns
        · exact Or.inl hv
        · exact absurd hw'.2.2 hns
      · exact Or.inr h''
  · intro visited f fr h ih hinv u hu w hw
    rw [bfs, dif_neg h] at hu ⊢
    refine ih ?_ u hu w hw
    intro u' hu' w' hw'
    rcases List.mem_cons.1 hu' with rfl | hu''
    · exact Or.inr (List.mem_append.2 (Or.inr (wadj_mem_unbrs hw')))
    · rcases hinv u' hu'' w' hw' with h' | h'
      · exact Or.inl (List.mem_cons_of_mem _ h')
      · rcases List.mem_cons.1 h' with rfl | h''
        · exact Or.inl (List.mem_cons_self _ _)
        · exact Or.inr (List.mem_append.2 (Or.inl h''))

/-- Weak reachability inside the induced node set `S`. -/
def WReach (E : List (ℕ × ℕ)) (S : List ℕ) : ℕ → ℕ → Prop :=
  Relation.ReflTransGen (wadj E S)

lemma wcomp_mem_self {E : List (ℕ × ℕ)} {S : List ℕ} {v : ℕ}
    (hv : v ∈ S) : v ∈ wcomp E S v :=
  bfs_absorbs E S [v] [] v (by simp) hv

lemma wcomp_subset_S {E : List (ℕ × ℕ)} {S : List ℕ} {v x : ℕ}
    (hx : x ∈ wcomp E S v) : x ∈ S := by
  rcases bfs_subset E S [v] [] x hx with h | h
  · cases h
  · exact h

lemma wcomp_sound {E : List (ℕ × ℕ)} {S : List ℕ} {v x : ℕ}
    (hx : x ∈ wcomp E S v) : WReach E S v x := by
  refine bfs_sound E S (WReach E S v)
    (fun a b ha hab => ha.tail hab) [v] [] ?_ ?_ x hx
  · intro z hz
    rw [List.mem_singleton] at hz
    subst hz
    exact Relation.ReflTransGen.refl
  · intro z hz
    cases hz

lemma wcomp_closed {E : List (ℕ × ℕ)} {S : List ℕ} {v : ℕ} :
    ∀ u ∈ wcomp E S v, ∀ w, wadj E S u w → w ∈ wcomp E S v :=
  bfs_closed E S [v] [] (fun u hu => absurd hu (List.not_mem_nil u))

lemma wcomp_complete {E : List (ℕ × ℕ)} {S : List ℕ} {v : ℕ}
    (hv : v ∈ S) {x : ℕ} (hx : WReach E S v x) : x ∈ wcomp E S v := by
  induction hx with
  | refl => exact wcomp_mem_self hv
  | tail _ hcb ih => exact wcomp_closed _ ih _ hcb

lemma wreach_symm {E : List (ℕ × ℕ)} {S : List ℕ} {a b : ℕ}
    (h : WReach E S a b) : WReach E S b a :=
  Relation.ReflTransGen.symmetric wadj_symm h

lemma wcomp_class_eq {E : List (ℕ × ℕ)} {S : List ℕ} {v u : ℕ}
    (hv : v ∈ S) (hu : u ∈ wcomp E S v) :
    ∀ x, x ∈ wcomp E S u ↔ x ∈ wcomp E S v := by
  have huS : u ∈ S := wcomp_subset_S hu
  have hvu : WReach E S v u := wcomp_sound hu
  have huv : WReach E S u v := wreach_symm hvu
  intro x
  constructor
  · intro hx
    exact wcomp_complete hv (hvu.trans (wcomp_sound hx))
  · intro hx
    exact wcomp_complete huS (huv.trans (wcomp_sound hx))

/-! ### The component fold: partition properties -/

lemma wccAux_comps {E : List (ℕ × ℕ)} {S : List ℕ} :
    ∀ {vs seen : List ℕ} {c : List ℕ}, c ∈ wccAux E S vs seen →
      ∃ v, v ∈ vs ∧ v ∉ seen ∧ c = wcomp E S v := by
  intro vs
  induction vs with
  | nil => intro seen c hc; cases hc
  | cons v vs ih =>
      intro seen c hc
      simp only [wccAux] at hc
      split_ifs at hc with hv
      · rcases ih hc with ⟨u, hu1, hu2, hu3⟩
        exact ⟨u, List.mem_cons_of_mem _ hu1, hu2, hu3⟩
      · rcases List.mem_cons.1 hc with rfl | hc'
        · exact ⟨v, List.mem_cons_self _ _, hv, rfl⟩
        · rcases ih hc' with ⟨u, hu1, hu2, hu3⟩
          refine ⟨u, List.mem_cons_of_mem _ hu1, ?_, hu3⟩
          intro hu
          exact hu2 (List.mem_append.2 (Or.inl hu))

/-- The accumulated `seen` list is a union of whole components. -/
def SeenClosed (E : List (ℕ × ℕ)) (S seen : List ℕ) : Prop :=
  ∀ u ∈ seen, ∀ w ∈ wcomp E S u, w ∈ seen

lemma seenClosed_nil {E : List (ℕ × ℕ)} {S : List ℕ} :
    SeenClosed E S [] := fun u hu => absurd hu (List.not_mem_nil u)

lemma seenClosed_append {E : List (ℕ × ℕ)} {S seen : List ℕ} {v : ℕ}
    (hv : v ∈ S) (hsc : SeenClosed E S seen) :
    SeenClosed E S (seen ++ wcomp E S v) := by
  intro u hu w hw
  rcases List.mem_append.1 hu with h | h
  · exact List.mem_append.2 (Or.inl (hsc u h w hw))
  · exact List.mem_append.2 (Or.inr ((wcomp_class_eq hv h w).1 hw))

lemma wccAux_avoid {E : List (ℕ × ℕ)} {S : List ℕ} :
    ∀ {vs seen : List ℕ}, (∀ v ∈ vs, v ∈ S) → SeenClosed E S seen →
      ∀ c ∈ wccAux E S vs seen, ∀ x ∈ c, x ∉ seen := by
  intro vs
  induction vs with
  | nil => intro seen _ _ c hc; cases hc
  | cons v vs ih =>
      intro seen hS hsc c hc x hx hxseen
      simp only [wccAux] at hc
      have hvS : v ∈ S := hS v (List.mem_cons_self _ _)
      have hS' : ∀ u ∈ vs, u ∈ S := fun u hu => hS u (List.mem_cons_of_mem _ hu)
      split_ifs at hc with hv
      · exact ih hS' hsc c hc x hx hxseen
      · rcases List.mem_cons.1 hc with rfl | hc'
        · have hvx : v ∈ wcomp E S x := by
            rw [wcomp_class_eq hvS hx v]
            exact wcomp_mem_self hvS
          exact hv (hsc x hxseen v hvx)
        · exact ih hS' (seenClosed_append hvS hsc) c hc' x hx
            (List.mem_append.2 (Or.inl hxseen))

lemma wccAux_disjoint {E : List (ℕ × ℕ)} {S : List ℕ} :
    ∀ {vs seen : List ℕ}, (∀ v ∈ vs, v ∈ S) → SeenClosed E S seen →
      List.Pairwise (fun c c' => ∀ x, x ∈ c → x ∈ c' → False)
        (wccAux E S vs seen) := by
  intro vs
  induction vs with
  | nil => intro seen _ _; exact List.Pairwise.nil
  | cons v vs ih =>
      intro seen hS hsc
      simp only [wccAux]
      have hvS : v ∈ S := hS v (List.mem_cons_self _ _)
      have hS' : ∀ u ∈ vs, u ∈ S := fun u hu => hS u (List.mem_cons_of_mem _ hu)
      split_ifs with hv
      · exact ih hS' hsc
      · refine List.Pairwise.cons ?_ (ih hS' (seenClosed_append hvS hsc))
        intro c' hc' x hxv hxc'
        exact wccAux_avoid hS' (seenClosed_append hvS hsc) c' hc' x hxc'
          (List.mem_append.2 (Or.inr hxv))

lemma wccAux_cover {E : List (ℕ × ℕ)} {S : List ℕ} :
    ∀ {vs seen : List ℕ} {a : ℕ}, (∀ v ∈ vs, v ∈ S) → a ∈ vs → a ∉ seen →
      ∃ c ∈ wccAux E S vs seen, a ∈ c := by
  intro vs
  induction vs with
  | nil => intro seen a _ ha; cases ha
  | cons v vs ih =>
      intro seen a hS ha hans
      simp only [wccAux]
      have hvS : v ∈ S := hS v (List.mem_cons_self _ _)
      have hS' : ∀ u ∈ vs, u ∈ S := fun u hu => hS u (List.mem_cons_of_mem _ hu)
      split_ifs with hv
      · rcases List.mem_cons.1 ha with rfl | ha'
        · exact absurd hv hans
        · exact ih hS' ha' hans
      · by_cases hav : a ∈ wcomp E S v
        · exact ⟨wcomp E S v, List.mem_cons_self _ _, hav⟩
        · rcases List.mem_cons.1 ha with rfl | ha'
          · exact absurd (wcomp_mem_self hvS) hav
          · have hans' : a ∉ seen ++ wcomp E S v := by
              intro h
              rcases List.mem_append.1 h with h' | h'
              · exact hans h'
              · exact hav h'
            rcases ih hS' ha' hans' with ⟨c, hc, hac⟩
            exact ⟨c, List.mem_cons_of_mem _ hc, hac⟩

lemma wccList_class {E : List (ℕ × ℕ)} {S : List ℕ} {c : List ℕ} {x : ℕ}
    (hc : c ∈ wccList E S) (hx : x ∈ c) :
    ∀ z, z ∈ c ↔ z ∈ wcomp E S x := by
  rcases wccAux_comps hc with ⟨v, hvS, _, rfl⟩
  intro z
  exact (wcomp_class_eq hvS hx z).symm

lemma wccList_disjoint (E : List (ℕ × ℕ)) (S : List ℕ) :
    List.Pairwise (fun c c' => ∀ x, x ∈ c → x ∈ c' → False)
      (wccList E S) :=
  wccAux_disjoint (fun _ hv => hv) seenClosed_nil

lemma wccList_cover {E : List (ℕ × ℕ)} {S : List ℕ} {a : ℕ} (ha : a ∈ S) :
    ∃ c ∈ wccList E S, a ∈ c :=
  wccAux_cover (fun _ hv => hv) ha (List.not_mem_nil a)

/-! ## Association-map (Python dict) lemmas -/

lemma lookup_cons_self {m : List (ℕ × ℕ)} {k v : ℕ} :
    ((k, v) :: m).lookup k = some v := by
  simp [List.lookup]

lemma lookup_cons_ne {m : List (ℕ × ℕ)} {a b k : ℕ} (h : k ≠ a) :
    ((a, b) :: m).lookup k = m.lookup k := by
  simp [List.lookup, beq_eq_false_iff_ne.2 h]

lemma lookup_append_of_none {m1 m2 : List (ℕ × ℕ)} {k : ℕ}
    (h : m1.lookup k = none) : (m1 ++ m2).lookup k = m2.lookup k := by
  induction m1 with
  | nil => rfl
  | cons p m ih =>
      rcases p with ⟨a, b⟩
      by_cases hka : k = a
      · subst hka
        rw [lookup_cons_self] at h
        cases h
      · rw [lookup_cons_ne hka] at h
        rw [List.cons_append, lookup_cons_ne hka]
        exact ih h

lemma lookup_append_of_some {m1 m2 : List (ℕ × ℕ)} {k v : ℕ}
    (h : m1.lookup k = some v) : (m1 ++ m2).lookup k = some v := by
  induction m1 with
  | nil => cases h
  | cons p m ih =>
      rcases p with ⟨a, b⟩
      by_cases hka : k = a
      · subst hka
        rw [lookup_cons_self] at h
        rw [List.cons_append, lookup_cons_self]
        exact h
      · rw [lookup_cons_ne hka] at h
        rw [List.cons_append, lookup_cons_ne hka]
        exact ih h

lemma lookup_isSome_iff_key {m : List (ℕ × ℕ)} {k : ℕ} :
    (m.lookup k).isSome = true ↔ k ∈ m.map Prod.fst := by
  induction m with
  | nil => simp [List.lookup]
  | cons p m ih =>
      rcases p with ⟨a, b⟩
      by_cases hka : k = a
      · subst hka
        rw [lookup_cons_self]
        simp
      · rw [lookup_cons_ne hka]
        simp only [List.map_cons, List.mem_cons, ih]
        constructor
        · exact Or.inr
        · rintro (h | h)
          · exact absurd h hka
          · exact h

lemma lookup_map_update_self :
    ∀ (m : List (ℕ × ℕ)) (k v : ℕ), (m.lookup k).isSome = true →
      (m.map (fun p => if p.1 = k then (k, v) else p)).lookup k = some v := by
  intro m k v
  induction m with
  | nil => intro h; simp [List.lookup] at h
  | cons p m ih =>
      intro h
      rcases p with ⟨a, b⟩
      rw [List.map_cons]
      by_cases hak : a = k
      · subst hak
        rw [if_pos rfl]
        exact lookup_cons_self
      · have hka : k ≠ a := fun hh => hak hh.symm
        rw [if_neg hak]
        rw [lookup_cons_ne hka] at h
        rw [lookup_cons_ne hka]
        exact ih h

lemma lookup_map_update_other {k v k' : ℕ} (hk : k' ≠ k) :
    ∀ (m : List (ℕ × ℕ)),
      (m.map (fun p => if p.1 = k then (k, v) else p)).lookup k'
        = m.lookup k' := by
  intro m
  induction m with
  | nil => rfl
  | cons p m ih =>
      rcases p with ⟨a, b⟩
      rw [List.map_cons]
      by_cases hak : a = k
      · subst hak
        rw [if_pos rfl, lookup_cons_ne hk, lookup_cons_ne hk]
        exact ih
      · rw [if_neg hak]
        by_cases hka' : k' = a
        · subst hka'
          rw [lookup_cons_self, lookup_cons_self]
        · rw [lookup_cons_ne hka', lookup_cons_ne hka']
          exact ih

lemma lookup_dictSet_self (m : List (ℕ × ℕ)) (k v : ℕ) :
    (dictSet m k v).lookup k = some v := by
  unfold dictSet
  split_ifs with h
  · exact lookup_map_update_self m k v h
  · have hnone : m.lookup k = none := by
      rcases hm : m.lookup k with _ | w
      · rfl
      · rw [hm] at h
        simp at h
    rw [lookup_append_of_none hnone]
    exact lookup_cons_self

lemma lookup_dictSet_other {m : List (ℕ × ℕ)} {k v k' : ℕ}
    (hk : k' ≠ k) : (dictSet m k v).lookup k' = m.lookup k' := by
  unfold dictSet
  split_ifs with h
  · exact lookup_map_update_other hk m
  · rcases hm : m.lookup k' with _ | w
    · rw [lookup_append_of_none hm, lookup_cons_ne hk]
      rfl
    · exact lookup_append_of_some hm

lemma lookup_dictSetIfAbsent_preserve {m : List (ℕ × ℕ)} {k' w k v : ℕ}
    (h : m.lookup k = some v) :
    (dictSetIfAbsent m k' w).lookup k = some v := by
  unfold dictSetIfAbsent
  split_ifs with h1
  · exact h
  · by_cases hkk : k = k'
    · subst hkk
      rw [h] at h1
      simp at h1
    · rw [lookup_dictSet_other hkk]
      exact h

lemma foldl_dictSetIfAbsent_preserve {idx : ℕ} :
    ∀ (l : List ℕ) (m : List (ℕ × ℕ)) (k v : ℕ), m.lookup k = some v →
      ((l.foldl (fun m x => dictSetIfAbsent m x idx) m).lookup k) = some v := by
  intro l
  induction l with
  | nil => intro m k v h; exact h
  | cons x l ih =>
      intro m k v h
      exact ih _ k v (lookup_dictSetIfAbsent_preserve h)

lemma foldl_dictSet_not_mem {idx : ℕ} :
    ∀ (l : List ℕ) (m : List (ℕ × ℕ)) (a : ℕ), a ∉ l →
      ((l.foldl (fun m x => dictSet m x idx) m).lookup a) = m.lookup a := by
  intro l
  induction l with
  | nil => intro m a _; rfl
  | cons x l ih =>
      intro m a ha
      rw [List.mem_cons, not_or] at ha
      rw [List.foldl_cons, ih _ a ha.2, lookup_dictSet_other ha.1]

lemma foldl_dictSet_mem {idx : ℕ} :
    ∀ (l : List ℕ) (m : List (ℕ × ℕ)) (a : ℕ), a ∈ l →
      ((l.foldl (fun m x => dictSet m x idx) m).lookup a) = some idx := by
  intro l
  induction l with
  | nil => intro m a ha; cases ha
  | cons x l ih =>
      intro m a ha
      rw [List.foldl_cons]
      by_cases hal : a ∈ l
      · exact ih _ a hal
      · rcases List.mem_cons.1 ha with rfl | h
        · rw [foldl_dictSet_not_mem l _ a hal, lookup_dictSet_self]
        · exact absurd h hal

lemma keys_dictSet (m : List (ℕ × ℕ)) (k v : ℕ) :
    (dictSet m k v).map Prod.fst = m.map Prod.fst ∨
      (dictSet m k v).map Prod.fst = m.map Prod.fst ++ [k] := by
  unfold dictSet
  split_ifs with h
  · left
    rw [List.map_map]
    refine List.map_congr_left ?_
    intro p _
    by_cases hp : p.1 = k
    · simp [hp]
    · simp [hp]
  · right
    simp

lemma keysNodup_dictSet {m : List (ℕ × ℕ)} {k v : ℕ}
    (h : (m.map Prod.fst).Nodup) :
    ((dictSet m k v).map Prod.fst).Nodup := by
  rcases hks : (m.lookup k).isSome with _ | _
  · have hkey : k ∉ m.map Prod.fst := by
      intro hmem
      rw [lookup_isSome_iff_key.2 hmem] at hks
      cases hks
    unfold dictSet
    rw [if_neg (by rw [hks]; exact Bool.false_ne_true)]
    rw [List.map_append]
    rw [List.nodup_append]
    exact ⟨h, List.nodup_singleton k, by simpa using hkey⟩
  · unfold dictSet
    rw [if_pos hks]
    rw [List.map_map]
    have : (Prod.fst ∘ fun p : ℕ × ℕ => if p.1 = k then (k, v) else p)
        = Prod.fst := by
      funext p
      by_cases hp : p.1 = k
      · simp [hp]
      · simp [hp]
    rw [this]
    exact h

lemma keysNodup_dictSetIfAbsent {m : List (ℕ × ℕ)} {k v : ℕ}
    (h : (m.map Prod.fst).Nodup) :
    ((dictSetIfAbsent m k v).map Prod.fst).Nodup := by
  unfold dictSetIfAbsent
  split_ifs with h1
  · exact h
  · exact keysNodup_dictSet h

lemma foldl_invariant {α β : Type} (step : α → β → α) (P : α → Prop)
    (l : List β) (hstep : ∀ st b, b ∈ l → P st → P (step st b)) :
    ∀ (st : α), P st → P (l.foldl step st) := by
  induction l with
  | nil => intro st h; exact h
  | cons b l ih =>
      intro st h
      exact ih (fun st' b' hb' h' => hstep st' b' (List.mem_cons_of_mem _ hb') h')
        _ (hstep st b (List.mem_cons_self _ _) h)

/-! ## Phase invariants of the assembler -/

lemma mapWrite_preserve {g : Bool} {idx : ℕ} {m : List (ℕ × ℕ)}
    {a k v : ℕ} (hg : g = true) (h : m.lookup k = some v) :
    (mapWrite g idx m a).lookup k = some v := by
  subst hg
  unfold mapWrite
  rw [if_pos rfl]
  exact lookup_dictSetIfAbsent_preserve h

lemma foldl_mapWrite_preserve {g : Bool} {idx : ℕ} (hg : g = true) :
    ∀ (l : List ℕ) (m : List (ℕ × ℕ)) (k v : ℕ), m.lookup k = some v →
      ((l.foldl (mapWrite g idx) m).lookup k) = some v := by
  intro l
  induction l with
  | nil => intro m k v h; exact h
  | cons x l ih =>
      intro m k v h
      rw [List.foldl_cons]
      exact ih _ k v (mapWrite_preserve hg h)

lemma mapWrite_keysNodup {g : Bool} {idx : ℕ} {m : List (ℕ × ℕ)} {a : ℕ}
    (h : (m.map Prod.fst).Nodup) :
    ((mapWrite g idx m a).map Prod.fst).Nodup := by
  unfold mapWrite
  split_ifs
  · exact keysNodup_dictSetIfAbsent h
  · exact keysNodup_dictSet h

lemma componentStep_preserve {rows : List RiskEntry} {pt : String}
    {st : BuildState} {comp : List ℕ} {k v : ℕ}
    (h : st.ringMap.lookup k = some v) :
    ((componentStep rows pt true st comp).ringMap.lookup k) = some v := by
  unfold componentStep
  split_ifs with hc
  · exact foldl_mapWrite_preserve rfl _ _ k v h
  · exact h

lemma componentPhase_preserve {E : List (ℕ × ℕ)} {rows : List RiskEntry}
    {pt : String} {S : List ℕ} {st : BuildState} {k v : ℕ}
    (h : st.ringMap.lookup k = some v) :
    ((componentPhase E rows pt true S st).ringMap.lookup k) = some v := by
  unfold componentPhase
  exact foldl_invariant _ (fun st' => st'.ringMap.lookup k = some v) _
    (fun st' c _ h' => componentStep_preserve h') st h

lemma fanStep_preserve {E : List (ℕ × ℕ)} {rows : List RiskEntry}
    {pt : String} {useSucc : Bool} {st : BuildState} {a k v : ℕ}
    (h : st.ringMap.lookup k = some v) :
    ((fanStep E rows pt useSucc st a).ringMap.lookup k) = some v := by
  unfold fanStep
  split_ifs with hc
  · exact foldl_mapWrite_preserve rfl _ _ k v h
  · exact h

lemma fanPhase_preserve {E : List (ℕ × ℕ)} {rows : List RiskEntry}
    {pt : String} {useSucc : Bool} {flagged : List ℕ} {st : BuildState}
    {k v : ℕ} (h : st.ringMap.lookup k = some v) :
    ((fanPhase E rows pt useSucc flagged st).ringMap.lookup k) = some v := by
  unfold fanPhase
  exact foldl_invariant _ (fun st' => st'.ringMap.lookup k = some v) _
    (fun st' a _ h' => fanStep_preserve h') st h

/-- What each component phase does to counter and rings: the counter is
monotone; every ring is either inherited or freshly appended with the
phase pattern type, a counter-fresh index, and at least the guard's
member count. -/
lemma componentPhase_inv (E : List (ℕ × ℕ)) (rows : List RiskEntry)
    (pt : String) (g : Bool) (S : List ℕ) (st : BuildState) :
    st.counter ≤ (componentPhase E rows pt g S st).counter ∧
    ∀ r ∈ (componentPhase E rows pt g S st).rings,
      r ∈ st.rings ∨ (r.pattern_type = pt ∧ st.counter < r.ring_index ∧
        r.ring_index ≤ (componentPhase E rows pt g S st).counter ∧
        2 ≤ r.member_accounts.length) := by
  unfold componentPhase
  refine foldl_invariant _ (fun st' =>
    st.counter ≤ st'.counter ∧
    ∀ r ∈ st'.rings, r ∈ st.rings ∨ (r.pattern_type = pt ∧
      st.counter < r.ring_index ∧ r.ring_index ≤ st'.counter ∧
      2 ≤ r.member_accounts.length)) _ ?_ st
    ⟨le_refl _, fun r hr => Or.inl hr⟩
  intro st' comp _ hP
  rcases hP with ⟨hcnt, hr⟩
  unfold componentStep
  split_ifs with hc
  · refine ⟨by dsimp only; omega, ?_⟩
    intro r hrmem
    dsimp only at hrmem ⊢
    rcases List.mem_append.1 hrmem with h' | h'
    · rcases hr r h' with h'' | ⟨h1, h2, h3, h4⟩
      · exact Or.inl h''
      · exact Or.inr ⟨h1, h2, by omega, h4⟩
    · rw [List.mem_singleton] at h'
      subst h'
      have hidx : (mkRing rows (st'.counter + 1) pt comp.dedup).ring_index
          = st'.counter + 1 := rfl
      refine Or.inr ⟨rfl, by omega, by omega, ?_⟩
      show 2 ≤ (sortNat comp.dedup).length
      rw [sortNat, List.length_insertionSort]
      exact hc
  · exact ⟨hcnt, hr⟩

/-- The analogous facts for the fan phases (member count ≥ 3). -/
lemma fanPhase_inv (E : List (ℕ × ℕ)) (rows : List RiskEntry)
    (pt : String) (useSucc : Bool) (flagged : List ℕ) (st : BuildState) :
    st.counter ≤ (fanPhase E rows pt useSucc flagged st).counter ∧
    ∀ r ∈ (fanPhase E rows pt useSucc flagged st).rings,
      r ∈ st.rings ∨ (r.pattern_type = pt ∧ st.counter < r.ring_index ∧
        r.ring_index ≤ (fanPhase E rows pt useSucc flagged st).counter ∧
        2 ≤ r.member_accounts.length) := by
  unfold fanPhase
  refine foldl_invariant _ (fun st' =>
    st.counter ≤ st'.counter ∧
    ∀ r ∈ st'.rings, r ∈ st.rings ∨ (r.pattern_type = pt ∧
      st.counter < r.ring_index ∧ r.ring_index ≤ st'.counter ∧
      2 ≤ r.member_accounts.length)) _ ?_ st
    ⟨le_refl _, fun r hr => Or.inl hr⟩
  intro st' a _ hP
  rcases hP with ⟨hcnt, hr⟩
  unfold fanStep
  split_ifs with hc
  · refine ⟨by dsimp only; omega, ?_⟩
    intro r hrmem
    dsimp only at hrmem ⊢
    rcases List.mem_append.1 hrmem with h' | h'
    · rcases hr r h' with h'' | ⟨h1, h2, h3, h4⟩
      · exact Or.inl h''
      · exact Or.inr ⟨h1, h2, by omega, h4⟩
    · rw [List.mem_singleton] at h'
      subst h'
      have hidx : (mkRing rows (st'.counter + 1) pt
          (fanCluster E useSucc a)).ring_index = st'.counter + 1 := rfl
      refine Or.inr ⟨rfl, by omega, by omega, ?_⟩
      show 2 ≤ (sortNat _).length
      rw [sortNat, List.length_insertionSort]
      omega
  · exact ⟨hcnt, hr⟩

lemma componentPhase_keysNodup {E : List (ℕ × ℕ)} {rows : List RiskEntry}
    {pt : String} {g : Bool} {S : List ℕ} {st : BuildState}
    (h : (st.ringMap.map Prod.fst).Nodup) :
    ((componentPhase E rows pt g S st).ringMap.map Prod.fst).Nodup := by
  unfold componentPhase
  refine foldl_invariant _ (fun st' => (st'.ringMap.map Prod.fst).Nodup) _
    ?_ st h
  intro st' comp _ h'
  unfold componentStep
  split_ifs with hc
  · exact foldl_invariant _ (fun m : List (ℕ × ℕ) => (m.map Prod.fst).Nodup) _
      (fun m a _ hm => mapWrite_keysNodup hm) _ h'
  · exact h'

lemma fanPhase_keysNodup {E : List (ℕ × ℕ)} {rows : List RiskEntry}
    {pt : String} {useSucc : Bool} {flagged : List ℕ} {st : BuildState}
    (h : (st.ringMap.map Prod.fst).Nodup) :
    ((fanPhase E rows pt useSucc flagged st).ringMap.map Prod.fst).Nodup := by
  unfold fanPhase
  refine foldl_invariant _ (fun st' => (st'.ringMap.map Prod.fst).Nodup) _
    ?_ st h
  intro st' a _ h'
  unfold fanStep
  split_ifs with hc
  · exact foldl_invariant _ (fun m : List (ℕ × ℕ) => (m.map Prod.fst).Nodup) _
      (fun m a _ hm => mapWrite_keysNodup hm) _ h'
  · exact h'

lemma mapWrite_false_eq (idx : ℕ) :
    mapWrite false idx = fun m a => dictSet m a idx := rfl

/-- Phase 1 from any base state: the component containing `a` (if it
has ≥ 2 members, within a pairwise-disjoint component list) claims `a`
and records a ring of the phase pattern under the same fresh index. -/
lemma compFold_claims (rows : List RiskEntry) (pt : String) {a : ℕ} :
    ∀ (comps : List (List ℕ)) (st : BuildState) (c0 : List ℕ),
      List.Pairwise (fun c c' => ∀ x, x ∈ c → x ∈ c' → False) comps →
      c0 ∈ comps → a ∈ c0 → 2 ≤ c0.dedup.length →
      ∃ idx,
        ((comps.foldl (componentStep rows pt false) st).ringMap.lookup a)
          = some idx ∧
        ∃ r ∈ (comps.foldl (componentStep rows pt false) st).rings,
          r.ring_index = idx ∧ r.pattern_type = pt := by
  intro comps
  induction comps with
  | nil => intro st c0 _ hc0; cases hc0
  | cons c comps ih =>
      intro st c0 hpw hc0 hac0 hlen
      rw [List.foldl_cons]
      rcases List.mem_cons.1 hc0 with rfl | hc0'
      · have hdisj : ∀ c' ∈ comps, ∀ x, x ∈ c0 → x ∈ c' → False :=
          fun c' hc' x hx hx' => (List.pairwise_cons.1 hpw).1 c' hc' x hx hx'
        have hlook : (componentStep rows pt false st c0).ringMap.lookup a
            = some (st.counter + 1) := by
          unfold componentStep
          rw [if_pos hlen]
          dsimp only
          have hmem : a ∈ sortNat c0.dedup := by
            rw [sortNat, List.mem_insertionSort, List.mem_dedup]
            exact hac0
          rw [mapWrite_false_eq]
          exact foldl_dictSet_mem _ _ _ hmem
        have hring : ∃ r ∈ (componentStep rows pt false st c0).rings,
            r.ring_index = st.counter + 1 ∧ r.pattern_type = pt := by
          unfold componentStep
          rw [if_pos hlen]
          refine ⟨mkRing rows (st.counter + 1) pt c0.dedup, ?_, rfl, rfl⟩
          dsimp only
          exact List.mem_append.2 (Or.inr (List.mem_singleton_self _))
        refine ⟨st.counter + 1, ?_, ?_⟩
        · refine foldl_invariant _ (fun stx : BuildState =>
            stx.ringMap.lookup a = some (st.counter + 1)) comps ?_ _ hlook
          intro stx c' hc' hP
          unfold componentStep
          split_ifs with hg
          · dsimp only
            have hna : a ∉ sortNat c'.dedup := by
              rw [sortNat, List.mem_insertionSort, List.mem_dedup]
              exact fun hmem => hdisj c' hc' a hac0 hmem
            rw [mapWrite_false_eq, foldl_dictSet_not_mem _ _ _ hna]
            exact hP
          · exact hP
        · refine foldl_invariant _ (fun stx : BuildState =>
            ∃ r ∈ stx.rings, r.ring_index = st.counter + 1 ∧
              r.pattern_type = pt) comps ?_ _ hring
          intro stx c' _ hP
          obtain ⟨r, hr, hri⟩ := hP
          unfold componentStep
          split_ifs with hg
          · exact ⟨r, by dsimp only; exact List.mem_append.2 (Or.inl hr), hri⟩
          · exact ⟨r, hr, hri⟩
      · exact ih _ c0 (List.pairwise_cons.1 hpw).2 hc0' hac0 hlen

/-! ## Claim C5: shell detector characterization -/

lemma mem_foldl_addNode {l acc : List ℕ} {x : ℕ} :
    x ∈ l.foldl addNode acc ↔ x ∈ acc ∨ x ∈ l := by
  induction l generalizing acc with
  | nil => simp
  | cons a l ih =>
      simp only [List.foldl_cons, ih, mem_addNode, List.mem_cons]
      tauto

lemma mem_shellStep {txs : List Txn} {acc : List ℕ} {a x : ℕ} :
    x ∈ shellStep txs acc a ↔
      x ∈ acc ∨ (shellInter txs a ≠ [] ∧ (x = a ∨ x ∈ shellInter txs a)) := by
  unfold shellStep
  split_ifs with h
  · simp [h]
  · simp only [mem_foldl_addNode, mem_addNode, h, ne_eq,
      not_false_eq_true, true_and]
    tauto

lemma mem_shellsFold_gen {txs : List Txn} {x : ℕ} :
    ∀ {order acc : List ℕ},
      (x ∈ order.foldl (shellStep txs) acc ↔
        x ∈ acc ∨ ∃ c ∈ order, shellInter txs c ≠ [] ∧
          (x = c ∨ x ∈ shellInter txs c)) := by
  intro order
  induction order with
  | nil => simp
  | cons a l ih =>
      intro acc
      simp only [List.foldl_cons, ih, mem_shellStep, List.mem_cons]
      constructor
      · rintro ((h | h) | ⟨c, hc, hrest⟩)
        · exact Or.inl h
        · exact Or.inr ⟨a, Or.inl rfl, h⟩
        · exact Or.inr ⟨c, Or.inr hc, hrest⟩
      · rintro (h | ⟨c, rfl | hc, hrest⟩)
        · exact Or.inl (Or.inl h)
        · exact Or.inl (Or.inr hrest)
        · exact Or.inr ⟨c, hc, hrest⟩

/-- Membership in `shellsFold` is a pure union over the iterated list. -/
lemma mem_shellsFold {txs : List Txn} {order : List ℕ} {x : ℕ} :
    x ∈ shellsFold txs order ↔
      ∃ c ∈ order, shellInter txs c ≠ [] ∧
        (x = c ∨ x ∈ shellInter txs c) := by
  simp [shellsFold, mem_shellsFold_gen]

/-- A shell candidate has ≥ 2 transactions, hence occurs in a row and
is a graph node. -/
lemma isShellCand_mem_nodesOf {txs : List Txn} {a : ℕ}
    (h : isShellCand txs a = true) : a ∈ nodesOf txs := by
  simp only [isShellCand, Bool.and_eq_true, decide_eq_true_eq] at h
  have h2 : 0 < txCount txs a := by omega
  unfold txCount at h2
  by_cases ho : outgoing txs a = []
  · have hi : incoming txs a ≠ [] := by
      intro hc
      rw [ho, hc] at h2
      simp at h2
    rcases List.exists_mem_of_ne_nil _ hi with ⟨t, ht⟩
    rw [incoming, List.mem_filter, beq_iff_eq] at ht
    exact mem_nodesOf.2 ⟨t, ht.1, Or.inr ht.2.symm⟩
  · rcases List.exists_mem_of_ne_nil _ ho with ⟨t, ht⟩
    rw [outgoing, List.mem_filter, beq_iff_eq] at ht
    exact mem_nodesOf.2 ⟨t, ht.1, Or.inl ht.2.symm⟩

lemma mem_shellCandList {txs : List Txn} {a : ℕ} :
    a ∈ shellCandList txs ↔ isShellCand txs a = true := by
  simp only [shellCandList, List.mem_filter, and_iff_right_iff_imp]
  exact fun h => isShellCand_mem_nodesOf h

/-- C5: with candidates = accounts whose sender+receiver transaction
count lies in `[2,3]`, the `shells` set equals the union, over every
candidate `c` whose successor set meets the candidate set, of
`{c} ∪ (successors(c) ∩ candidates)` — independent of the iteration
order over the candidate set; in particular a chain `a→b→c` of
candidates is flagged entirely. -/
theorem c5_shell_detector (txs : List Txn) (order : List ℕ)
    (hsub : ∀ x ∈ order, x ∈ shellCandList txs)
    (hsup : ∀ x ∈ shellCandList txs, x ∈ order) :
    (∀ x, x ∈ shellsFold txs order ↔
      ∃ c, isShellCand txs c = true ∧ shellInter txs c ≠ [] ∧
        (x = c ∨ x ∈ shellInter txs c)) ∧
    (shellsFold txs order).toFinset = (shellsOf txs).toFinset ∧
    (∀ a b c, isShellCand txs a = true → isShellCand txs b = true →
      isShellCand txs c = true →
      (a, b) ∈ edgesOf txs → (b, c) ∈ edgesOf txs →
      a ∈ shellsFold txs order ∧ b ∈ shellsFold txs order ∧
        c ∈ shellsFold txs order) := by
  have hmem : ∀ a, a ∈ order ↔ isShellCand txs a = true := fun a =>
    ⟨fun h => mem_shellCandList.1 (hsub a h),
     fun h => hsup a (mem_shellCandList.2 h)⟩
  have hchar : ∀ x, x ∈ shellsFold txs order ↔
      ∃ c, isShellCand txs c = true ∧ shellInter txs c ≠ [] ∧
        (x = c ∨ x ∈ shellInter txs c) := by
    intro x
    rw [mem_shellsFold]
    constructor
    · rintro ⟨c, hc, hrest⟩
      exact ⟨c, (hmem c).1 hc, hrest⟩
    · rintro ⟨c, hc, hrest⟩
      exact ⟨c, (hmem c).2 hc, hrest⟩
  refine ⟨hchar, ?_, ?_⟩
  · ext x
    simp only [List.mem_toFinset]
    rw [hchar x, shellsOf, mem_shellsFold]
    constructor
    · rintro ⟨c, hc, hrest⟩
      exact ⟨c, mem_shellCandList.2 hc, hrest⟩
    · rintro ⟨c, hc, hrest⟩
      exact ⟨c, mem_shellCandList.1 hc, hrest⟩
  · intro a b c ha hb hc hab hbc
    have hbmem : b ∈ shellInter txs a := by
      rw [shellInter, List.mem_filter]
      exact ⟨mem_successors.2 hab, hb⟩
    have hcmem : c ∈ shellInter txs b := by
      rw [shellInter, List.mem_filter]
      exact ⟨mem_successors.2 hbc, hc⟩
    refine ⟨?_, ?_, ?_⟩
    · exact (hchar a).2 ⟨a, ha, List.ne_nil_of_mem hbmem, Or.inl rfl⟩
    · exact (hchar b).2 ⟨a, ha, List.ne_nil_of_mem hbmem, Or.inr hbmem⟩
    · exact (hchar c).2 ⟨b, hb, List.ne_nil_of_mem hcmem, Or.inr hcmem⟩

/-- Witness for C5: a 4-cycle of two-transaction accounts, candidates
enumerated in a scrambled order; the chain `0→1→2` is flagged whole. -/
theorem c5_witness :
    (∀ x ∈ ([2, 0, 1, 9] : List ℕ),
        x ∈ shellCandList [⟨9, 0, some 0, 0⟩, ⟨0, 1, some 1, 0⟩,
          ⟨1, 2, some 2, 0⟩, ⟨2, 9, some 3, 0⟩]) ∧
    (∀ x ∈ shellCandList [⟨9, 0, some 0, 0⟩, ⟨0, 1, some 1, 0⟩,
        ⟨1, 2, some 2, 0⟩, ⟨2, 9, some 3, 0⟩], x ∈ ([2, 0, 1, 9] : List ℕ)) ∧
    (0 ∈ shellsFold [⟨9, 0, some 0, 0⟩, ⟨0, 1, some 1, 0⟩,
        ⟨1, 2, some 2, 0⟩, ⟨2, 9, some 3, 0⟩] [2, 0, 1, 9] ∧
     1 ∈ shellsFold [⟨9, 0, some 0, 0⟩, ⟨0, 1, some 1, 0⟩,
        ⟨1, 2, some 2, 0⟩, ⟨2, 9, some 3, 0⟩] [2, 0, 1, 9] ∧
     2 ∈ shellsFold [⟨9, 0, some 0, 0⟩, ⟨0, 1, some 1, 0⟩,
        ⟨1, 2, some 2, 0⟩, ⟨2, 9, some 3, 0⟩] [2, 0, 1, 9]) :=
  ⟨by decide, by decide,
    (c5_shell_detector
      [⟨9, 0, some 0, 0⟩, ⟨0, 1, some 1, 0⟩, ⟨1, 2, some 2, 0⟩,
        ⟨2, 9, some 3, 0⟩]
      [2, 0, 1, 9] (by decide) (by decide)).2.2 0 1 2
      (by decide) (by decide) (by decide) (by decide) (by decide)⟩

/-! ## Claim C10: two-run determinism -/

lemma riskRow_shells_congr (cy fi fo s1 s2 : List ℕ)
    (hs : ∀ x, x ∈ s1 ↔ x ∈ s2) (n : ℕ) :
    riskRow ⟨cy, fi, fo, s1⟩ n = riskRow ⟨cy, fi, fo, s2⟩ n := by
  have hraw : rawScore ⟨cy, fi, fo, s1⟩ n = rawScore ⟨cy, fi, fo, s2⟩ n := by
    unfold rawScore
    rw [if_congr (hs n) rfl rfl]
  have hreason : reasonList ⟨cy, fi, fo, s1⟩ n = reasonList ⟨cy, fi, fo, s2⟩ n := by
    unfold reasonList
    rw [if_congr (hs n) rfl rfl]
  unfold riskRow
  rw [hraw, hreason]

lemma build_shells_congr (nodes : List ℕ) (E : List (ℕ × ℕ))
    (cy fi fo s1 s2 : List ℕ) (rows : List RiskEntry) (pt : ℚ)
    (hs : ∀ x, x ∈ s1 ↔ x ∈ s2) :
    build_structured_output nodes E ⟨cy, fi, fo, s1⟩ rows pt
      = build_structured_output nodes E ⟨cy, fi, fo, s2⟩ rows pt := by
  have hfilter : nodes.filter (fun n => decide (n ∈ s1))
      = nodes.filter (fun n => decide (n ∈ s2)) :=
    List.filter_congr fun a _ => by rw [decide_eq_decide]; exact hs a
  have hb : buildState4 nodes E ⟨cy, fi, fo, s1⟩ rows
      = buildState4 nodes E ⟨cy, fi, fo, s2⟩ rows := by
    simp only [buildState4, buildState3, buildState2, buildState1]
    dsimp only
    rw [hfilter]
  simp only [build_structured_output]
  rw [hb]

/-- C10: two runs of the pipeline on the same transaction list produce
identical flag sets (the `shells` set as a set — it is accumulated in
iteration order), identical risk rows, and an identical structured
output (rings, members, pattern types, scores), whatever enumeration
of the shell-candidate set either run's set iteration happens to use. -/
theorem c10_two_run_determinism (txs : List Txn) (o1 o2 : List ℕ) (pt : ℚ)
    (h1 : ∀ x ∈ o1, x ∈ shellCandList txs)
    (h1' : ∀ x ∈ shellCandList txs, x ∈ o1)
    (h2 : ∀ x ∈ o2, x ∈ shellCandList txs)
    (h2' : ∀ x ∈ shellCandList txs, x ∈ o2) :
    (runPipelineWith txs o1 pt).1.cycles = (runPipelineWith txs o2 pt).1.cycles ∧
    (runPipelineWith txs o1 pt).1.fan_in = (runPipelineWith txs o2 pt).1.fan_in ∧
    (runPipelineWith txs o1 pt).1.fan_out = (runPipelineWith txs o2 pt).1.fan_out ∧
    (runPipelineWith txs o1 pt).1.shells.toFinset
      = (runPipelineWith txs o2 pt).1.shells.toFinset ∧
    (runPipelineWith txs o1 pt).2.1 = (runPipelineWith txs o2 pt).2.1 ∧
    (runPipelineWith txs o1 pt).2.2 = (runPipelineWith txs o2 pt).2.2 := by
  have hs : ∀ x, x ∈ shellsFold txs o1 ↔ x ∈ shellsFold txs o2 := by
    intro x
    rw [mem_shellsFold, mem_shellsFold]
    constructor
    · rintro ⟨c, hc, hrest⟩
      exact ⟨c, h2' c (h1 c hc), hrest⟩
    · rintro ⟨c, hc, hrest⟩
      exact ⟨c, h1' c (h2 c hc), hrest⟩
  have hrows : assign_risk_scores (nodesOf txs)
        ⟨cyclesOf txs, fanInSet txs, fanOutSet txs, shellsFold txs o1⟩
      = assign_risk_scores (nodesOf txs)
        ⟨cyclesOf txs, fanInSet txs, fanOutSet txs, shellsFold txs o2⟩ := by
    unfold assign_risk_scores
    exact List.map_congr_left fun n _ =>
      riskRow_shells_congr _ _ _ _ _ hs n
  refine ⟨rfl, rfl, rfl, ?_, ?_, ?_⟩
  · ext x
    simp only [runPipelineWith, analyzeFlagsWith, List.mem_toFinset]
    exact hs x
  · simpa only [runPipelineWith, analyzeFlagsWith] using hrows
  · simp only [runPipelineWith, analyzeFlagsWith]
    rw [hrows]
    exact build_shells_congr _ _ _ _ _ _ _ _ _ hs

/-- Witness for C10 on the 4-cycle fixture with two scrambled candidate
enumerations. -/
theorem c10_witness :
    (∀ x ∈ ([2, 0, 1, 9] : List ℕ),
        x ∈ shellCandList [⟨9, 0, some 0, 0⟩, ⟨0, 1, some 1, 0⟩,
          ⟨1, 2, some 2, 0⟩, ⟨2, 9, some 3, 0⟩]) ∧
    (runPipelineWith [⟨9, 0, some 0, 0⟩, ⟨0, 1, some 1, 0⟩,
        ⟨1, 2, some 2, 0⟩, ⟨2, 9, some 3, 0⟩] [2, 0, 1, 9] 0).2.2
      = (runPipelineWith [⟨9, 0, some 0, 0⟩, ⟨0, 1, some 1, 0⟩,
        ⟨1, 2, some 2, 0⟩, ⟨2, 9, some 3, 0⟩] [9, 1, 0, 2] 0).2.2 :=
  ⟨by decide,
    (c10_two_run_determinism
      [⟨9, 0, some 0, 0⟩, ⟨0, 1, some 1, 0⟩, ⟨1, 2, some 2, 0⟩,
        ⟨2, 9, some 3, 0⟩]
      [2, 0, 1, 9] [9, 1, 0, 2] 0
      (by decide) (by decide) (by decide) (by decide)).2.2.2.2.2⟩

/-! ## Claim C4: smurfing threshold -/

/-- A group of exactly ten valid timestamps inside a 1-hour span always
fires the 72-hour window test. -/
lemma smurfHit_of_ten_in_hour (ts : List (Option ℤ)) (t0 : ℤ)
    (hlen : ts.length = 10)
    (hspan : ∀ o ∈ ts, o ≠ none ∧ t0 ≤ o.getD 0 ∧ o.getD 0 ≤ t0 + 60) :
    smurfHit ts = true := by
  unfold smurfHit
  set s := ts.insertionSort tsLe with hsdef
  have hperm : List.Perm s ts := List.perm_insertionSort tsLe ts
  have hslen : s.length = 10 := by rw [hperm.length_eq, hlen]
  have h9 : 9 < s.length := by omega
  have h0 : 0 < s.length := by omega
  have hd : 0 < (s.drop 9).length := by
    rw [List.length_drop, hslen]
    omega
  have hzlen : 0 < ((s.drop 9).zip s).length := by
    rw [List.length_zip]
    omega
  have hz : ((s.drop 9).zip s).get ⟨0, hzlen⟩
      = (s.get ⟨9, h9⟩, s.get ⟨0, h0⟩) := by
    simp [List.get_eq_getElem, List.getElem_zip, List.getElem_drop]
  rw [List.any_eq_true]
  refine ⟨((s.drop 9).zip s).get ⟨0, hzlen⟩, List.get_mem _ _ _, ?_⟩
  rw [hz]
  have hmem9 : s.get ⟨9, h9⟩ ∈ ts := hperm.subset (List.get_mem _ _ _)
  have hmem0 : s.get ⟨0, h0⟩ ∈ ts := hperm.subset (List.get_mem _ _ _)
  rcases hspan _ hmem9 with ⟨hne9, hlo9, hhi9⟩
  rcases hspan _ hmem0 with ⟨hne0, hlo0, hhi0⟩
  rcases Option.ne_none_iff_exists'.1 hne9 with ⟨v9, hv9⟩
  rcases Option.ne_none_iff_exists'.1 hne0 with ⟨v0, hv0⟩
  rw [hv9] at hlo9 hhi9
  rw [hv0] at hlo0 hhi0
  simp only [Option.getD_some] at hlo9 hhi9 hlo0 hhi0
  rw [hv9, hv0]
  simp only [diffLe72, decide_eq_true_eq]
  omega

/-- C4: a receiver with exactly 10 incoming transactions whose (all
valid) timestamps lie in a 1-hour span is flagged `fan_in`; with only 9
incoming transactions it is never flagged; symmetrically for senders
and `fan_out`; and a `NaT` timestamp never yields a valid window
difference. -/
theorem c4_smurfing_threshold :
    (∀ (txs : List Txn) (r : ℕ) (t0 : ℤ),
      (incoming txs r).length = 10 →
      (∀ t ∈ incoming txs r, t.timestamp ≠ none ∧
        t0 ≤ t.timestamp.getD 0 ∧ t.timestamp.getD 0 ≤ t0 + 60) →
      fanInFlag txs r = true ∧ r ∈ fanInSet txs) ∧
    (∀ (txs : List Txn) (r : ℕ),
      (incoming txs r).length = 9 →
      fanInFlag txs r = false ∧ r ∉ fanInSet txs) ∧
    (∀ (txs : List Txn) (s : ℕ) (t0 : ℤ),
      (outgoing txs s).length = 10 →
      (∀ t ∈ outgoing txs s, t.timestamp ≠ none ∧
        t0 ≤ t.timestamp.getD 0 ∧ t.timestamp.getD 0 ≤ t0 + 60) →
      fanOutFlag txs s = true ∧ s ∈ fanOutSet txs) ∧
    (∀ (txs : List Txn) (s : ℕ),
      (outgoing txs s).length = 9 →
      fanOutFlag txs s = false ∧ s ∉ fanOutSet txs) ∧
    (∀ o : Option ℤ, diffLe72 none o = false ∧ diffLe72 o none = false) := by
  have hmap : ∀ (l : List Txn) (t0 : ℤ),
      (∀ t ∈ l, t.timestamp ≠ none ∧
        t0 ≤ t.timestamp.getD 0 ∧ t.timestamp.getD 0 ≤ t0 + 60) →
      ∀ o ∈ l.map (fun t => t.timestamp), o ≠ none ∧
        t0 ≤ o.getD 0 ∧ o.getD 0 ≤ t0 + 60 := by
    intro l t0 hsp o ho
    rcases List.mem_map.1 ho with ⟨t, ht, rfl⟩
    exact hsp t ht
  refine ⟨?_, ?_, ?_, ?_, ?_⟩
  · intro txs r t0 hlen hsp
    have hflag : fanInFlag txs r = true := by
      unfold fanInFlag
      rw [Bool.and_eq_true, decide_eq_true_eq]
      refine ⟨by omega, ?_⟩
      exact smurfHit_of_ten_in_hour _ t0 (by simp [hlen]) (hmap _ t0 hsp)
    refine ⟨hflag, ?_⟩
    have hne : incoming txs r ≠ [] := by
      intro hc
      rw [hc] at hlen
      simp at hlen
    rcases List.exists_mem_of_ne_nil _ hne with ⟨t, ht⟩
    rw [incoming, List.mem_filter, beq_iff_eq] at ht
    rw [fanInSet, List.mem_filter]
    exact ⟨mem_nodesOf.2 ⟨t, ht.1, Or.inr ht.2.symm⟩, hflag⟩
  · intro txs r hlen
    have hflag : fanInFlag txs r = false := by
      unfold fanInFlag
      rw [Bool.and_eq_false_iff]
      left
      rw [decide_eq_false_iff_not]
      omega
    refine ⟨hflag, ?_⟩
    rw [fanInSet, List.mem_filter]
    simp [hflag]
  · intro txs s t0 hlen hsp
    have hflag : fanOutFlag txs s = true := by
      unfold fanOutFlag
      rw [Bool.and_eq_true, decide_eq_true_eq]
      refine ⟨by omega, ?_⟩
      exact smurfHit_of_ten_in_hour _ t0 (by simp [hlen]) (hmap _ t0 hsp)
    refine ⟨hflag, ?_⟩
    have hne : outgoing txs s ≠ [] := by
      intro hc
      rw [hc] at hlen
      simp at hlen
    rcases List.exists_mem_of_ne_nil _ hne with ⟨t, ht⟩
    rw [outgoing, List.mem_filter, beq_iff_eq] at ht
    rw [fanOutSet, List.mem_filter]
    exact ⟨mem_nodesOf.2 ⟨t, ht.1, Or.inl ht.2.symm⟩, hflag⟩
  · intro txs s hlen
    have hflag : fanOutFlag txs s = false := by
      unfold fanOutFlag
      rw [Bool.and_eq_false_iff]
      left
      rw [decide_eq_false_iff_not]
      omega
    refine ⟨hflag, ?_⟩
    rw [fanOutSet, List.mem_filter]
    simp [hflag]
  · intro o
    cases o <;> exact ⟨rfl, rfl⟩

/-- Witness for C4: ten one-minute-apart payments into account `100`
are flagged; nine into account `200` are not. -/
theorem c4_witness :
    (fanInFlag [⟨1, 100, some 0, 0⟩, ⟨2, 100, some 1, 0⟩,
        ⟨3, 100, some 2, 0⟩, ⟨4, 100, some 3, 0⟩, ⟨5, 100, some 4, 0⟩,
        ⟨6, 100, some 5, 0⟩, ⟨7, 100, some 6, 0⟩, ⟨8, 100, some 7, 0⟩,
        ⟨9, 100, some 8, 0⟩, ⟨10, 100, some 9, 0⟩] 100 = true ∧
      100 ∈ fanInSet [⟨1, 100, some 0, 0⟩, ⟨2, 100, some 1, 0⟩,
        ⟨3, 100, some 2, 0⟩, ⟨4, 100, some 3, 0⟩, ⟨5, 100, some 4, 0⟩,
        ⟨6, 100, some 5, 0⟩, ⟨7, 100, some 6, 0⟩, ⟨8, 100, some 7, 0⟩,
        ⟨9, 100, some 8, 0⟩, ⟨10, 100, some 9, 0⟩]) ∧
    (fanInFlag [⟨1, 200, some 0, 0⟩, ⟨2, 200, some 1, 0⟩,
        ⟨3, 200, some 2, 0⟩, ⟨4, 200, some 3, 0⟩, ⟨5, 200, some 4, 0⟩,
        ⟨6, 200, some 5, 0⟩, ⟨7, 200, some 6, 0⟩, ⟨8, 200, some 7, 0⟩,
        ⟨9, 200, some 8, 0⟩] 200 = false ∧
      200 ∉ fanInSet [⟨1, 200, some 0, 0⟩, ⟨2, 200, some 1, 0⟩,
        ⟨3, 200, some 2, 0⟩, ⟨4, 200, some 3, 0⟩, ⟨5, 200, some 4, 0⟩,
        ⟨6, 200, some 5, 0⟩, ⟨7, 200, some 6, 0⟩, ⟨8, 200, some 7, 0⟩,
        ⟨9, 200, some 8, 0⟩]) :=
  ⟨c4_smurfing_threshold.1
      [⟨1, 100, some 0, 0⟩, ⟨2, 100, some 1, 0⟩, ⟨3, 100, some 2, 0⟩,
        ⟨4, 100, some 3, 0⟩, ⟨5, 100, some 4, 0⟩, ⟨6, 100, some 5, 0⟩,
        ⟨7, 100, some 6, 0⟩, ⟨8, 100, some 7, 0⟩, ⟨9, 100, some 8, 0⟩,
        ⟨10, 100, some 9, 0⟩] 100 0 (by decide) (by decide),
    c4_smurfing_threshold.2.1
      [⟨1, 200, some 0, 0⟩, ⟨2, 200, some 1, 0⟩, ⟨3, 200, some 2, 0⟩,
        ⟨4, 200, some 3, 0⟩, ⟨5, 200, some 4, 0⟩, ⟨6, 200, some 5, 0⟩,
        ⟨7, 200, some 6, 0⟩, ⟨8, 200, some 7, 0⟩, ⟨9, 200, some 8, 0⟩]
      200 (by decide)⟩

/-! ## Claim C9: isomorphism self-match -/

lemma head_mem_inserts (x : ℕ) (l : List ℕ) : (x :: l) ∈ inserts x l := by
  cases l <;> simp [inserts]

lemma self_mem_perms (l : List ℕ) : l ∈ perms l := by
  induction l with
  | nil => simp [perms]
  | cons x xs ih =>
      simp only [perms, List.mem_flatten]
      exact ⟨inserts x xs, List.mem_map.2 ⟨xs, ih, rfl⟩, head_mem_inserts x xs⟩

lemma zipFun_self (l : List ℕ) (a : ℕ) : zipFun l l a = a := by
  induction l with
  | nil => rfl
  | cons b l ih =>
      unfold zipFun at ih ⊢
      rw [List.zip_cons_cons]
      by_cases hab : a = b
      · subst hab
        simp [List.lookup]
      · have hb : (a == b) = false := by simp [hab]
        simp only [List.lookup, hb]
        exact ih

lemma permOk_self (n1 : List ℕ) (E : List (ℕ × ℕ)) :
    permOk n1 E E n1 = true := by
  unfold permOk
  rw [List.all_eq_true]
  intro a _
  rw [List.all_eq_true]
  intro b _
  rw [zipFun_self, zipFun_self]
  exact beq_self_eq_true _

lemma isIso_self (l : List ℕ) (E : List (ℕ × ℕ)) : isIso l E l E = true := by
  unfold isIso
  rw [List.any_eq_true]
  exact ⟨l, self_mem_perms l, permOk_self l E⟩

lemma cloneStep_mono (E : List (ℕ × ℕ)) (t hops : ℕ)
    (acc : Finset ℕ × Finset (ℕ × ℕ)) (n : ℕ) :
    acc.1 ⊆ (cloneStep E t hops acc n).1 ∧
      acc.2 ⊆ (cloneStep E t hops acc n).2 := by
  unfold cloneStep
  split_ifs <;>
    simp [Finset.subset_union_left, Finset.Subset.refl]

lemma foldl_cloneStep_mono (E : List (ℕ × ℕ)) (t hops : ℕ) :
    ∀ (l : List ℕ) (acc : Finset ℕ × Finset (ℕ × ℕ)),
      acc.1 ⊆ (l.foldl (cloneStep E t hops) acc).1 ∧
        acc.2 ⊆ (l.foldl (cloneStep E t hops) acc).2 := by
  intro l
  induction l with
  | nil => exact fun acc => ⟨Finset.Subset.refl _, Finset.Subset.refl _⟩
  | cons n l ih =>
      intro acc
      rcases cloneStep_mono E t hops acc n with ⟨h1, h2⟩
      rcases ih (cloneStep E t hops acc n) with ⟨h3, h4⟩
      exact ⟨h1.trans h3, h2.trans h4⟩

lemma cloneStep_self (E : List (ℕ × ℕ)) (t hops : ℕ)
    (acc : Finset ℕ × Finset (ℕ × ℕ)) :
    (cloneStep E t hops acc t).1 = acc.1 ∪ (egoNodes E t hops).toFinset ∧
    (cloneStep E t hops acc t).2
      = acc.2 ∪ (inducedEdges E (egoNodes E t hops)).toFinset := by
  unfold cloneStep
  rw [if_pos ⟨rfl, rfl⟩, if_pos ⟨rfl, isIso_self _ _⟩]
  exact ⟨rfl, rfl⟩

lemma foldl_cloneStep_hit (E : List (ℕ × ℕ)) (t hops : ℕ) :
    ∀ (l : List ℕ) (acc : Finset ℕ × Finset (ℕ × ℕ)), t ∈ l →
      (egoNodes E t hops).toFinset ⊆ (l.foldl (cloneStep E t hops) acc).1 ∧
      (inducedEdges E (egoNodes E t hops)).toFinset
        ⊆ (l.foldl (cloneStep E t hops) acc).2 := by
  intro l
  induction l with
  | nil => intro acc h; cases h
  | cons n l ih =>
      intro acc hmem
      by_cases hnt : n = t
      · subst hnt
        rcases foldl_cloneStep_mono E n hops l (cloneStep E n hops acc n)
          with ⟨h1, h2⟩
        rcases cloneStep_self E n hops acc with ⟨e1, e2⟩
        rw [List.foldl_cons]
        constructor
        · intro x hx
          exact h1 (by rw [e1]; exact Finset.mem_union_right _ hx)
        · intro x hx
          exact h2 (by rw [e2]; exact Finset.mem_union_right _ hx)
      · rcases List.mem_cons.1 hmem with h | h
        · exact absurd h.symm hnt
        · rw [List.foldl_cons]
          exact ih _ h

lemma mem_egoExpand_self {E : List (ℕ × ℕ)} {s : List ℕ} {x : ℕ}
    (hx : x ∈ s) : x ∈ egoExpand E s := by
  unfold egoExpand
  rw [List.mem_dedup]
  exact List.mem_append.2 (Or.inl hx)

lemma self_mem_egoNodes (E : List (ℕ × ℕ)) (t : ℕ) (hops : ℕ) :
    t ∈ egoNodes E t hops := by
  unfold egoNodes
  induction hops with
  | zero => simp
  | succ n ih =>
      rw [Function.iterate_succ_apply']
      exact mem_egoExpand_self ih

/-- C9: when the target exists, it passes its own degree filter and
node-count check and is isomorphic to itself, so the whole target ego
network (nodes and edges) is contained in the match result, and the
match node set is never empty. -/
theorem c9_self_match (txs : List Txn) (t hops : ℕ)
    (ht : t ∈ nodesOf txs) (hhops : 1 ≤ hops) :
    (∀ x ∈ egoNodes (edgesOf txs) t hops,
      x ∈ (find_structural_clones (nodesOf txs) (edgesOf txs) t hops).1) ∧
    (∀ e ∈ inducedEdges (edgesOf txs) (egoNodes (edgesOf txs) t hops),
      e ∈ (find_structural_clones (nodesOf txs) (edgesOf txs) t hops).2) ∧
    (find_structural_clones (nodesOf txs) (edgesOf txs) t hops).1 ≠ ∅ := by
  clear hhops
  unfold find_structural_clones
  rw [if_pos ht]
  rcases foldl_cloneStep_hit (edgesOf txs) t hops (nodesOf txs) (∅, ∅) ht
    with ⟨h1, h2⟩
  refine ⟨fun x hx => h1 (List.mem_toFinset.2 hx),
    fun e he => h2 (List.mem_toFinset.2 he), ?_⟩
  exact Finset.ne_empty_of_mem
    (h1 (List.mem_toFinset.2 (self_mem_egoNodes _ t hops)))

/-- Witness for C9 on the one-edge graph `0 → 1`. -/
theorem c9_witness :
    (0 : ℕ) ∈ nodesOf [⟨0, 1, some 0, 0⟩] ∧
    (0 : ℕ) ∈ (find_structural_clones (nodesOf [⟨0, 1, some 0, 0⟩])
      (edgesOf [⟨0, 1, some 0, 0⟩]) 0 1).1 ∧
    (find_structural_clones (nodesOf [⟨0, 1, some 0, 0⟩])
      (edgesOf [⟨0, 1, some 0, 0⟩]) 0 1).1 ≠ ∅ :=
  ⟨by decide,
    (c9_self_match [⟨0, 1, some 0, 0⟩] 0 1 (by decide) (by decide)).1 0
      (by decide),
    (c9_self_match [⟨0, 1, some 0, 0⟩] 0 1 (by decide) (by decide)).2.2⟩

/-! ## Claim C3: cycle detector

The DFS stack states are characterised by an invariant: the recorded
path is a duplicate-free reversed walk from the start node to the
current node whose length is the recorded depth.  Soundness: a `true`
result exhibits a simple directed cycle of length ≥ 3.  Completeness:
a start node lying on a directed triangle always yields `true`. -/

/-- `chainRev E [vₖ, …, v₀]`: consecutive edges `vᵢ → vᵢ₊₁` (the list
is a walk recorded back-to-front, as the DFS pushes). -/
def chainRev (E : List (ℕ × ℕ)) : List ℕ → Prop
  | a :: b :: rest => (b, a) ∈ E ∧ chainRev E (b :: rest)
  | _ => True

/-- `chainFwd E [v₀, …, vₖ]`: consecutive edges `vᵢ → vᵢ₊₁`. -/
def chainFwd (E : List (ℕ × ℕ)) : List ℕ → Prop
  | a :: b :: rest => (a, b) ∈ E ∧ chainFwd E (b :: rest)
  | _ => True

/-- A (non-empty, duplicate-free) directed simple cycle
`v₀ → v₁ → … → vₖ → v₀`. -/
def IsSimpleCycle (E : List (ℕ × ℕ)) : List ℕ → Prop
  | [] => False
  | a :: rest => (a :: rest).Nodup ∧ chainFwd E ((a :: rest) ++ [a])

/-- The DFS stack-state invariant for start node `s`. -/
def StInv (E : List (ℕ × ℕ)) (s : ℕ) (st : CState) : Prop :=
  st.2.1.head? = some st.1 ∧ st.2.1.getLast? = some s ∧ st.2.1.Nodup ∧
    chainRev E st.2.1 ∧ st.2.2 = st.2.1.length

/-- What a successful DFS from `s` returns: a duplicate-free reversed
walk from `s` to some `c` of length ≥ 3 together with the closing edge
`c → s`. -/
def FoundPath (E : List (ℕ × ℕ)) (s : ℕ) (p : List ℕ) : Prop :=
  ∃ c, p.head? = some c ∧ p.getLast? = some s ∧ p.Nodup ∧ chainRev E p ∧
    3 ≤ p.length ∧ (c, s) ∈ E

lemma mem_pushChildren {E : List (ℕ × ℕ)} {c : ℕ} {p : List ℕ} {d : ℕ}
    {st : CState} :
    st ∈ pushChildren E c p d ↔
      d < 5 ∧ ∃ n, (c, n) ∈ E ∧ n ∉ p ∧ st = (n, n :: p, d + 1) := by
  unfold pushChildren
  split_ifs with hd
  · simp only [List.mem_reverse, List.mem_map, List.mem_filter,
      mem_successors, decide_eq_true_eq, hd, true_and]
    constructor
    · rintro ⟨n, ⟨hE, hn⟩, rfl⟩
      exact ⟨n, hE, hn, rfl⟩
    · rintro ⟨n, hE, hn, rfl⟩
      exact ⟨n, ⟨hE, hn⟩, rfl⟩
  · simp [hd]

lemma stInv_pushChildren {E : List (ℕ × ℕ)} {s c : ℕ} {p : List ℕ} {d : ℕ}
    (hinv : StInv E s (c, p, d)) :
    ∀ st ∈ pushChildren E c p d, StInv E s st := by
  intro st hst
  rcases mem_pushChildren.1 hst with ⟨_, n, hE, hn, rfl⟩
  rcases hinv with ⟨hhd, hlast, hnd, hch, hdep⟩
  rcases p with _ | ⟨c', rest⟩
  · cases hhd
  · simp only [List.head?_cons, Option.some_inj] at hhd
    subst hhd
    refine ⟨rfl, ?_, ?_, ?_, ?_⟩
    · rw [List.getLast?_cons_cons]
      exact hlast
    · exact List.nodup_cons.2 ⟨hn, hnd⟩
    · exact ⟨hE, hch⟩
    · simp only [List.length_cons] at hdep ⊢
      omega

lemma dfs_sound (E : List (ℕ × ℕ)) (s : ℕ) :
    ∀ stack, (∀ st ∈ stack, StInv E s st) →
      ∀ q, dfsFrom E s stack = (true, q) → FoundPath E s q := by
  refine dfsFrom.induct E s
    (fun stack => (∀ st ∈ stack, StInv E s st) →
      ∀ q, dfsFrom E s stack = (true, q) → FoundPath E s q) ?_ ?_ ?_
  · intro _ q hq
    rw [dfsFrom] at hq
    cases hq
  · intro c p d rest hcond hinv q hq
    rw [dfsFrom, if_pos hcond] at hq
    rcases hcond with ⟨hd, hsucc⟩
    have hq2 : p = q := congrArg Prod.snd hq
    subst hq2
    rcases hinv (c, p, d) (by simp) with ⟨hhd, hlast, hnd, hch, hdep⟩
    dsimp only at hdep
    exact ⟨c, hhd, hlast, hnd, hch, by omega, mem_successors.1 hsucc⟩
  · intro c p d rest hcond ih hinv q hq
    rw [dfsFrom, if_neg hcond] at hq
    refine ih ?_ q hq
    intro st hst
    rcases List.mem_append.1 hst with h | h
    · exact stInv_pushChildren (hinv (c, p, d) (by simp)) st h
    · exact hinv st (List.mem_cons_of_mem _ h)

/-- A stack state that guarantees eventual success of the DFS from `s`,
given a triangle `s → x → y → s`: either the state can close a cycle
immediately, or it can reach such a state through `y`, or through
`x` then `y`. -/
def GoodState (E : List (ℕ × ℕ)) (s x y : ℕ) (st : CState) : Prop :=
  (3 ≤ st.2.2 ∧ (st.1, s) ∈ E) ∨
  ((st.1, y) ∈ E ∧ (y, s) ∈ E ∧ y ∉ st.2.1 ∧ 2 ≤ st.2.2 ∧ st.2.2 < 5) ∨
  ((st.1, x) ∈ E ∧ (x, y) ∈ E ∧ (y, s) ∈ E ∧ x ∉ st.2.1 ∧ y ∉ st.2.1 ∧
    y ≠ x ∧ 1 ≤ st.2.2 ∧ st.2.2 < 4)

lemma dfs_complete (E : List (ℕ × ℕ)) (s x y : ℕ) :
    ∀ stack, (∃ st ∈ stack, GoodState E s x y st) →
      (dfsFrom E s stack).1 = true := by
  refine dfsFrom.induct E s
    (fun stack => (∃ st ∈ stack, GoodState E s x y st) →
      (dfsFrom E s stack).1 = true) ?_ ?_ ?_
  · rintro ⟨st, hst, _⟩
    cases hst
  · intro c p d rest hcond _
    rw [dfsFrom, if_pos hcond]
  · intro c p d rest hcond ih hgood
    rw [dfsFrom, if_neg hcond]
    refine ih ?_
    rcases hgood with ⟨st, hst, hg⟩
    rcases List.mem_cons.1 hst with rfl | hmem
    · dsimp only [GoodState] at hg
      rcases hg with ⟨hd3, hcs⟩ | ⟨hcy, hys, hynp, hd2, hd5⟩ |
        ⟨hcx, hxy, hys, hxnp, hynp, hyx, hd1, hd4⟩
      · exact absurd ⟨hd3, mem_successors.2 hcs⟩ hcond
      · refine ⟨(y, y :: p, d + 1), ?_, ?_⟩
        · exact List.mem_append.2 (Or.inl (mem_pushChildren.2
            ⟨by omega, y, hcy, hynp, rfl⟩))
        · refine Or.inl ⟨?_, hys⟩
          dsimp only [GoodState]
          omega
      · refine ⟨(x, x :: p, d + 1), ?_, ?_⟩
        · exact List.mem_append.2 (Or.inl (mem_pushChildren.2
            ⟨by omega, x, hcx, hxnp, rfl⟩))
        · refine Or.inr (Or.inl ⟨hxy, hys, ?_, ?_, ?_⟩)
          · dsimp only
            rw [List.mem_cons]
            rintro (rfl | hyp)
            · exact hyx rfl
            · exact hynp hyp
          · dsimp only
            omega
          · dsimp only
            omega
    · exact ⟨st, List.mem_append.2 (Or.inr hmem), hg⟩

/-- A node on a directed triangle (the guard conditions the DFS needs
to reach the closing state). -/
def OnTriangle (E : List (ℕ × ℕ)) (v : ℕ) : Prop :=
  ∃ x y, (v, x) ∈ E ∧ (x, y) ∈ E ∧ (y, v) ∈ E ∧ x ≠ v ∧ y ≠ v ∧ y ≠ x

lemma dfs_from_onTriangle {E : List (ℕ × ℕ)} {v : ℕ}
    (h : OnTriangle E v) : (dfsFrom E v [(v, [v], 1)]).1 = true := by
  rcases h with ⟨x, y, hvx, hxy, hyv, hxv, hyvne, hyx⟩
  refine dfs_complete E v x y _ ⟨(v, [v], 1), by simp, ?_⟩
  dsimp only [GoodState]
  refine Or.inr (Or.inr ⟨hvx, hxy, hyv, ?_, ?_, hyx, by omega, by omega⟩)
  · rw [List.mem_singleton]
    exact hxv
  · rw [List.mem_singleton]
    exact hyvne

lemma stInv_init (E : List (ℕ × ℕ)) (v : ℕ) :
    ∀ st ∈ [((v : ℕ), [v], (1 : ℕ))], StInv E v st := by
  intro st hst
  rw [List.mem_singleton] at hst
  subst hst
  exact ⟨rfl, rfl, List.nodup_singleton v, trivial, rfl⟩

/-- A successful start is flagged: the found path always contains the
start node. -/
lemma start_mem_foundPath {E : List (ℕ × ℕ)} {s : ℕ} {p : List ℕ}
    (h : FoundPath E s p) : s ∈ p := by
  rcases h with ⟨c, _, hlast, _⟩
  have hmem : s ∈ p.getLast? := by
    rw [hlast]
    rfl
  rcases List.mem_getLast?_eq_getLast hmem with ⟨hne, heq⟩
  rw [heq]
  exact List.getLast_mem hne

lemma cycleScan_mono (E : List (ℕ × ℕ)) :
    ∀ (vs acc : List ℕ) (z : ℕ), z ∈ acc → z ∈ cycleScan E vs acc := by
  intro vs
  induction vs with
  | nil => intro acc z hz; exact hz
  | cons u vs ih =>
      intro acc z hz
      simp only [cycleScan]
      split_ifs with h1 h2
      · exact ih acc z hz
      · exact ih _ z (mem_foldl_addNode.2 (Or.inl hz))
      · exact ih acc z hz

lemma cycleScan_flag (E : List (ℕ × ℕ)) :
    ∀ (vs acc : List ℕ) (v : ℕ), v ∈ vs → OnTriangle E v →
      v ∈ cycleScan E vs acc := by
  intro vs
  induction vs with
  | nil => intro acc v hv; cases hv
  | cons u vs ih =>
      intro acc v hv htri
      simp only [cycleScan]
      rcases List.mem_cons.1 hv with rfl | hv'
      · split_ifs with h1 h2
        · exact cycleScan_mono E vs acc v h1
        · rcases hdf : dfsFrom E v [(v, [v], 1)] with ⟨b, q⟩
          have hb : b = true := by
            have := dfs_from_onTriangle htri
            rw [hdf] at this
            exact this
          subst hb
          have hfp : FoundPath E v q := dfs_sound E v _ (stInv_init E v) q hdf
          refine cycleScan_mono E vs _ v (mem_foldl_addNode.2 (Or.inr ?_))
          exact start_mem_foundPath hfp
        · exact absurd (dfs_from_onTriangle htri) (by simp [h2])
      · split_ifs with h1 h2
        · exact ih acc v hv' htri
        · exact ih _ v hv' htri
        · exact ih acc v hv' htri

lemma chainFwd_append_one {E : List (ℕ × ℕ)} :
    ∀ (l : List ℕ) (c a : ℕ), l.getLast? = some c →
      (chainFwd E (l ++ [a]) ↔ chainFwd E l ∧ (c, a) ∈ E)
  | [], c, a => by intro h; cases h
  | [u], c, a => by
      intro h
      have hu : u = c := by simpa using h
      subst hu
      show (u, a) ∈ E ∧ True ↔ True ∧ (u, a) ∈ E
      tauto
  | u :: v :: rest, c, a => by
      intro h
      rw [List.getLast?_cons_cons] at h
      show (u, v) ∈ E ∧ chainFwd E ((v :: rest) ++ [a]) ↔
        ((u, v) ∈ E ∧ chainFwd E (v :: rest)) ∧ (c, a) ∈ E
      rw [chainFwd_append_one (v :: rest) c a h]
      tauto

lemma chainRev_iff_chainFwd_reverse {E : List (ℕ × ℕ)} :
    ∀ l : List ℕ, chainRev E l ↔ chainFwd E l.reverse := by
  intro l
  induction l with
  | nil => simp [chainRev, chainFwd]
  | cons a l ih =>
      cases l with
      | nil => simp [chainRev, chainFwd]
      | cons b rest =>
          rw [List.reverse_cons]
          have hgoal : chainRev E (a :: b :: rest) ↔
              (b, a) ∈ E ∧ chainRev E (b :: rest) := Iff.rfl
          rw [hgoal]
          have hlast : (b :: rest).reverse.getLast? = some b := by
            rw [List.getLast?_reverse]
            rfl
          rw [chainFwd_append_one _ b a hlast, ← ih]
          tauto

lemma foundPath_isSimpleCycle {E : List (ℕ × ℕ)} {s : ℕ} {p : List ℕ}
    (h : FoundPath E s p) :
    IsSimpleCycle E p.reverse ∧ 3 ≤ p.reverse.length := by
  rcases h with ⟨c, hhd, hlast, hnd, hch, hlen, hcs⟩
  have hlenr : 3 ≤ p.reverse.length := by
    rw [List.length_reverse]
    exact hlen
  refine ⟨?_, hlenr⟩
  have hchain : chainRev E (s :: p) := by
    rcases p with _ | ⟨c', rest⟩
    · cases hhd
    · have hc : c' = c := by simpa using hhd
      show (c', s) ∈ E ∧ chainRev E (c' :: rest)
      exact ⟨hc ▸ hcs, hch⟩
  have hfw : chainFwd E (p.reverse ++ [s]) := by
    have hfw0 := (chainRev_iff_chainFwd_reverse (s :: p)).1 hchain
    rw [List.reverse_cons] at hfw0
    exact hfw0
  have hhead : p.reverse.head? = some s := by
    rw [List.head?_reverse]
    exact hlast
  rcases hr : p.reverse with _ | ⟨a, rrest⟩
  · rw [hr] at hlenr
    simp at hlenr
  · have ha : a = s := by
      rw [hr] at hhead
      simpa using hhead
    rw [hr] at hfw
    subst ha
    refine ⟨?_, hfw⟩
    rw [← hr]
    exact List.nodup_reverse.2 hnd

lemma dfs_false_of_no_short_cycle {E : List (ℕ × ℕ)}
    (hno : ∀ l, IsSimpleCycle E l → l.length ≤ 2) (v : ℕ) :
    (dfsFrom E v [(v, [v], 1)]).1 = false := by
  rcases hdf : dfsFrom E v [(v, [v], 1)] with ⟨b, q⟩
  cases b
  · rfl
  · exfalso
    have hfp : FoundPath E v q := dfs_sound E v _ (stInv_init E v) q hdf
    rcases foundPath_isSimpleCycle hfp with ⟨hcyc, hlen⟩
    have := hno _ hcyc
    omega

lemma cycleScan_id (E : List (ℕ × ℕ))
    (hall : ∀ v, (dfsFrom E v [(v, [v], 1)]).1 = false) :
    ∀ vs acc, cycleScan E vs acc = acc := by
  intro vs
  induction vs with
  | nil => intro acc; rfl
  | cons u vs ih =>
      intro acc
      simp only [cycleScan, hall u, Bool.false_eq_true, if_false]
      split_ifs with h1
      · exact ih acc
      · exact ih acc

/-- C3: any transaction set whose graph contains a directed triangle
`a→b→c→a` has all three nodes flagged in `cycles`; and whenever every
directed simple cycle of the graph has length at most 2 (in particular
for a graph whose only cycle is a 2-cycle `a→b→a` or a self-loop), the
`cycles` flag set stays empty. -/
theorem c3_cycle_detector :
    (∀ (txs : List Txn) (a b c : ℕ), a ≠ b → b ≠ c → a ≠ c →
      (a, b) ∈ edgesOf txs → (b, c) ∈ edgesOf txs → (c, a) ∈ edgesOf txs →
      a ∈ cyclesOf txs ∧ b ∈ cyclesOf txs ∧ c ∈ cyclesOf txs) ∧
    (∀ txs : List Txn,
      (∀ l, IsSimpleCycle (edgesOf txs) l → l.length ≤ 2) →
      cyclesOf txs = []) := by
  constructor
  · intro txs a b c hab hbc hac hE1 hE2 hE3
    refine ⟨?_, ?_, ?_⟩
    · exact cycleScan_flag _ _ [] a (edge_ends_mem_nodesOf hE1).1
        ⟨b, c, hE1, hE2, hE3, Ne.symm hab, Ne.symm hac, Ne.symm hbc⟩
    · exact cycleScan_flag _ _ [] b (edge_ends_mem_nodesOf hE1).2
        ⟨c, a, hE2, hE3, hE1, Ne.symm hbc, hab, hac⟩
    · exact cycleScan_flag _ _ [] c (edge_ends_mem_nodesOf hE2).2
        ⟨a, b, hE3, hE1, hE2, hac, hbc, Ne.symm hab⟩
  · intro txs hno
    exact cycleScan_id _ (fun v => dfs_false_of_no_short_cycle hno v) _ _

lemma chainFwd_sources {E : List (ℕ × ℕ)} :
    ∀ (l : List ℕ) (z : ℕ), chainFwd E (l ++ [z]) →
      ∀ x ∈ l, ∃ y, (x, y) ∈ E
  | [], _, _ => by simp
  | [u], z, h => by
      rcases h with ⟨huz, _⟩
      intro x hx
      rw [List.mem_singleton] at hx
      subst hx
      exact ⟨z, huz⟩
  | u :: v :: rest, z, h => by
      rcases h with ⟨huv, hrest⟩
      intro x hx
      rcases List.mem_cons.1 hx with rfl | hx'
      · exact ⟨v, huv⟩
      · exact chainFwd_sources (v :: rest) z hrest x hx'

lemma length_le_two_of_nodup_mem_pair {l : List ℕ} {u v : ℕ}
    (hnd : l.Nodup) (hmem : ∀ x ∈ l, x = u ∨ x = v) : l.length ≤ 2 := by
  have h1 : l.toFinset ⊆ {u, v} := by
    intro x hx
    rcases hmem x (List.mem_toFinset.1 hx) with rfl | rfl <;> simp
  have h2 : l.toFinset.card ≤ ({u, v} : Finset ℕ).card :=
    Finset.card_le_card h1
  have h3 : ({u, v} : Finset ℕ).card ≤ 2 := by
    apply le_trans (Finset.card_insert_le u {v})
    simp
  rw [List.toFinset_card_of_nodup hnd] at h2
  omega

/-- Witness for C3: the triangle `0→1→2→0` flags all three nodes; the
2-cycle `0→1→0` and the self-loop `0→0` flag nothing. -/
theorem c3_witness :
    (0 ∈ cyclesOf [⟨0, 1, some 0, 0⟩, ⟨1, 2, some 1, 0⟩, ⟨2, 0, some 2, 0⟩] ∧
     1 ∈ cyclesOf [⟨0, 1, some 0, 0⟩, ⟨1, 2, some 1, 0⟩, ⟨2, 0, some 2, 0⟩] ∧
     2 ∈ cyclesOf [⟨0, 1, some 0, 0⟩, ⟨1, 2, some 1, 0⟩, ⟨2, 0, some 2, 0⟩]) ∧
    cyclesOf [⟨0, 1, some 0, 0⟩, ⟨1, 0, some 1, 0⟩] = [] ∧
    cyclesOf [⟨0, 0, some 0, 0⟩] = [] := by
  refine ⟨c3_cycle_detector.1
      [⟨0, 1, some 0, 0⟩, ⟨1, 2, some 1, 0⟩, ⟨2, 0, some 2, 0⟩] 0 1 2
      (by decide) (by decide) (by decide) (by decide) (by decide) (by decide),
    c3_cycle_detector.2 [⟨0, 1, some 0, 0⟩, ⟨1, 0, some 1, 0⟩] ?_,
    c3_cycle_detector.2 [⟨0, 0, some 0, 0⟩] ?_⟩
  · intro l hl
    rcases l with _ | ⟨a, rest⟩
    · cases hl
    · rcases hl with ⟨hnd, hch⟩
      refine length_le_two_of_nodup_mem_pair hnd (u := 0) (v := 1) ?_
      intro x hx
      rcases chainFwd_sources _ _ hch x hx with ⟨y, hxy⟩
      have hE : edgesOf [(⟨0, 1, some 0, 0⟩ : Txn), ⟨1, 0, some 1, 0⟩]
          = [(0, 1), (1, 0)] := by decide
      rw [hE, List.mem_cons, List.mem_singleton] at hxy
      rcases hxy with h | h
      · left
        exact congrArg Prod.fst h
      · right
        exact congrArg Prod.fst h
  · intro l hl
    rcases l with _ | ⟨a, rest⟩
    · cases hl
    · rcases hl with ⟨hnd, hch⟩
      refine length_le_two_of_nodup_mem_pair hnd (u := 0) (v := 0) ?_
      intro x hx
      rcases chainFwd_sources _ _ hch x hx with ⟨y, hxy⟩
      have hE : edgesOf [(⟨0, 0, some 0, 0⟩ : Txn)] = [(0, 0)] := by decide
      rw [hE] at hxy
      left
      simp only [List.mem_singleton] at hxy
      exact congrArg Prod.fst hxy

/-! ## Claim C6: ring structural invariants -/

/-- C6: every fraud ring has at least 2 member accounts; the
account→ring map has duplicate-free keys (each account maps to at most
one ring); an entry present after any phase survives to the final
output unchanged (never overwritten by a later category); and the
phase-1 components, whose writes are unguarded, are pairwise disjoint
(so each is written at most once). -/
theorem c6_ring_invariants (nodes : List ℕ) (E : List (ℕ × ℕ))
    (fl : FlagSets) (rows : List RiskEntry) (pt : ℚ) :
    (∀ r ∈ (build_structured_output nodes E fl rows pt).fraud_rings,
      2 ≤ r.member_accounts.length) ∧
    (((build_structured_output nodes E fl rows pt).account_ring_map.map
        Prod.fst).Nodup) ∧
    (∀ a idx, (buildState1 nodes E fl rows).ringMap.lookup a = some idx →
      (build_structured_output nodes E fl rows pt).account_ring_map.lookup a
        = some idx) ∧
    (∀ a idx, (buildState2 nodes E fl rows).ringMap.lookup a = some idx →
      (build_structured_output nodes E fl rows pt).account_ring_map.lookup a
        = some idx) ∧
    (∀ a idx, (buildState3 nodes E fl rows).ringMap.lookup a = some idx →
      (build_structured_output nodes E fl rows pt).account_ring_map.lookup a
        = some idx) ∧
    List.Pairwise (fun c c' => ∀ x, x ∈ c → x ∈ c' → False)
      (wccList E (nodes.filter (fun n => decide (n ∈ fl.cycles)))) := by
  have hmap : (build_structured_output nodes E fl rows pt).account_ring_map
      = (buildState4 nodes E fl rows).ringMap := rfl
  have hrings : (build_structured_output nodes E fl rows pt).fraud_rings
      = (buildState4 nodes E fl rows).rings := rfl
  have hsz1 : ∀ r ∈ (buildState1 nodes E fl rows).rings,
      2 ≤ r.member_accounts.length := by
    intro r hr
    rcases (componentPhase_inv E rows "cycle" false
        (nodes.filter (fun n => decide (n ∈ fl.cycles)))
        emptyBuildState).2 r hr with h | h
    · exact absurd h (List.not_mem_nil r)
    · exact h.2.2.2
  have hsz2 : ∀ r ∈ (buildState2 nodes E fl rows).rings,
      2 ≤ r.member_accounts.length := by
    intro r hr
    rcases (fanPhase_inv E rows "fan_in" false fl.fan_in
        (buildState1 nodes E fl rows)).2 r hr with h | h
    · exact hsz1 r h
    · exact h.2.2.2
  have hsz3 : ∀ r ∈ (buildState3 nodes E fl rows).rings,
      2 ≤ r.member_accounts.length := by
    intro r hr
    rcases (fanPhase_inv E rows "fan_out" true fl.fan_out
        (buildState2 nodes E fl rows)).2 r hr with h | h
    · exact hsz2 r h
    · exact h.2.2.2
  have hsz4 : ∀ r ∈ (buildState4 nodes E fl rows).rings,
      2 ≤ r.member_accounts.length := by
    intro r hr
    rcases (componentPhase_inv E rows "shell_layering" true
        (nodes.filter (fun n => decide (n ∈ fl.shells)))
        (buildState3 nodes E fl rows)).2 r hr with h | h
    · exact hsz3 r h
    · exact h.2.2.2
  have hnd : ((buildState4 nodes E fl rows).ringMap.map Prod.fst).Nodup := by
    refine componentPhase_keysNodup (fanPhase_keysNodup
      (fanPhase_keysNodup (componentPhase_keysNodup ?_)))
    simp [emptyBuildState]
  have hp3 : ∀ a idx,
      (buildState3 nodes E fl rows).ringMap.lookup a = some idx →
      (buildState4 nodes E fl rows).ringMap.lookup a = some idx :=
    fun a idx h => componentPhase_preserve h
  have hp2 : ∀ a idx,
      (buildState2 nodes E fl rows).ringMap.lookup a = some idx →
      (buildState4 nodes E fl rows).ringMap.lookup a = some idx :=
    fun a idx h => hp3 a idx (fanPhase_preserve h)
  have hp1 : ∀ a idx,
      (buildState1 nodes E fl rows).ringMap.lookup a = some idx →
      (buildState4 nodes E fl rows).ringMap.lookup a = some idx :=
    fun a idx h => hp2 a idx (fanPhase_preserve h)
  rw [hmap, hrings]
  exact ⟨hsz4, hnd, hp1, hp2, hp3, wccList_disjoint E _⟩

/-- Witness for C6 on the 2-cycle graph with both nodes cycle-flagged:
account 0 is claimed by ring 1 in phase 1 and keeps it in the output. -/
theorem c6_witness :
    (buildState1 [0, 1] [(0, 1), (1, 0)] ⟨[0, 1], [], [], []⟩ []).ringMap.lookup 0
      = some 1 ∧
    (build_structured_output [0, 1] [(0, 1), (1, 0)] ⟨[0, 1], [], [], []⟩ []
      0).account_ring_map.lookup 0 = some 1 := by
  have h1 : (buildState1 [0, 1] [(0, 1), (1, 0)] ⟨[0, 1], [], [], []⟩
      []).ringMap.lookup 0 = some 1 := by
    simp [buildState1, componentPhase, componentStep, wccList, wccAux,
      wcomp, bfs, unbrs, successors, predecessors, emptyBuildState,
      sortNat, mapWrite, dictSet, dictSetIfAbsent, List.lookup,
      List.insertionSort, List.orderedInsert]
  exact ⟨h1, (c6_ring_invariants [0, 1] [(0, 1), (1, 0)]
    ⟨[0, 1], [], [], []⟩ [] 0).2.2.1 0 1 h1⟩

/-! ## Claim C1: ring-assignment precedence -/

/-- Every flagged cycle node lies on some successful DFS path whose
nodes are all flagged. -/
lemma cycleScan_source (E : List (ℕ × ℕ)) :
    ∀ (vs acc : List ℕ) (x : ℕ), x ∈ cycleScan E vs acc →
      x ∈ acc ∨ ∃ v p, dfsFrom E v [(v, [v], 1)] = (true, p) ∧ x ∈ p ∧
        ∀ z ∈ p, z ∈ cycleScan E vs acc := by
  intro vs
  induction vs with
  | nil => intro acc x hx; exact Or.inl hx
  | cons u vs ih =>
      intro acc x hx
      simp only [cycleScan] at hx ⊢
      split_ifs at hx ⊢ with h1 h2
      · exact ih acc x hx
      · rcases ih _ x hx with h | ⟨v, p, hd, hxp, hsub⟩
        · rcases mem_foldl_addNode.1 h with h' | h'
          · exact Or.inl h'
          · refine Or.inr ⟨u, (dfsFrom E u [(u, [u], 1)]).2,
              Prod.ext h2 rfl, h', ?_⟩
            intro z hz
            exact cycleScan_mono E vs _ z (mem_foldl_addNode.2 (Or.inr hz))
        · exact Or.inr ⟨v, p, hd, hxp, hsub⟩
      · exact ih acc x hx

lemma cyclesOf_source {txs : List Txn} {a : ℕ} (ha : a ∈ cyclesOf txs) :
    ∃ v p, FoundPath (edgesOf txs) v p ∧ a ∈ p ∧
      ∀ z ∈ p, z ∈ cyclesOf txs := by
  rcases cycleScan_source (edgesOf txs) (nodesOf txs) [] a ha
    with h | ⟨v, p, hd, hap, hsub⟩
  · cases h
  · exact ⟨v, p, dfs_sound _ v _ (stInv_init _ v) p hd, hap, hsub⟩

/-- Every node of a (length ≥ 2) reversed walk is an endpoint of some
edge. -/
lemma chainRev_mem_edge {E : List (ℕ × ℕ)} :
    ∀ (p : List ℕ), chainRev E p → 2 ≤ p.length →
      ∀ x ∈ p, ∃ e ∈ E, x = e.1 ∨ x = e.2
  | [] => by intro _ h; simp at h
  | [_] => by intro _ h; simp at h
  | u :: v :: rest => by
      rintro ⟨hvu, hrest⟩ _ x hx
      rcases List.mem_cons.1 hx with rfl | hx'
      · exact ⟨(v, x), hvu, Or.inr rfl⟩
      · rcases rest with _ | ⟨w, rest'⟩
        · rw [List.mem_singleton] at hx'
          subst hx'
          exact ⟨(x, u), hvu, Or.inl rfl⟩
        · exact chainRev_mem_edge (v :: w :: rest') hrest (by simp) x hx'

lemma chainRev_head_wreach {E : List (ℕ × ℕ)} {S : List ℕ} :
    ∀ (p : List ℕ), chainRev E p → (∀ x ∈ p, x ∈ S) →
      ∀ hd, p.head? = some hd → ∀ z ∈ p, WReach E S hd z
  | [] => by intro _ _ hd h; cases h
  | [u] => by
      intro _ _ hd hh z hz
      have h1 : u = hd := by simpa using hh
      rw [List.mem_singleton] at hz
      subst h1
      subst hz
      exact Relation.ReflTransGen.refl
  | u :: v :: rest => by
      rintro ⟨hvu, hrest⟩ hS hd hh z hz
      have h1 : u = hd := by simpa using hh
      subst h1
      rcases List.mem_cons.1 hz with rfl | hz'
      · exact Relation.ReflTransGen.refl
      · have hadj : wadj E S u v :=
          ⟨Or.inr hvu, hS u (by simp), hS v (by simp)⟩
      -- reach from v, then prepend the step
        have hrec : WReach E S v z :=
          chainRev_head_wreach (v :: rest) hrest
            (fun x hx => hS x (List.mem_cons_of_mem _ hx)) v rfl z hz'
        exact Relation.ReflTransGen.head hadj hrec

lemma chainRev_wreach {E : List (ℕ × ℕ)} {S : List ℕ} {p : List ℕ}
    (hch : chainRev E p) (hS : ∀ x ∈ p, x ∈ S) :
    ∀ x ∈ p, ∀ z ∈ p, WReach E S x z := by
  intro x hx z hz
  obtain ⟨hd, hhd⟩ : ∃ hd, p.head? = some hd := by
    rcases p with _ | ⟨u, rest⟩
    · cases hx
    · exact ⟨u, rfl⟩
  exact (wreach_symm (chainRev_head_wreach p hch hS hd hhd x hx)).trans
    (chainRev_head_wreach p hch hS hd hhd z hz)

/-- C1 (amended): for every flag set and graph, an account claimed by
an earlier-precedence phase is never remapped by a later category (its
map entry after phases 1, 2 or 3 is its final entry); and for flag sets
produced by `analyze_networks` — whose flagged cycle nodes always lie
on a flagged DFS cycle path — an account flagged in both `cycles` and
`fan_in` is claimed by a ring of pattern type `cycle`, never `fan_in`.
(For an arbitrary flag set whose cycle-subgraph component of the
account is a singleton, the entry can be a `fan_in` ring; see the
counterexample.) -/
theorem c1_ring_precedence_amended :
    (∀ (nodes : List ℕ) (E : List (ℕ × ℕ)) (fl : FlagSets)
        (rows : List RiskEntry) (pt : ℚ) (a idx : ℕ),
      ((buildState1 nodes E fl rows).ringMap.lookup a = some idx →
        (build_structured_output nodes E fl rows pt).account_ring_map.lookup a
          = some idx) ∧
      ((buildState2 nodes E fl rows).ringMap.lookup a = some idx →
        (build_structured_output nodes E fl rows pt).account_ring_map.lookup a
          = some idx) ∧
      ((buildState3 nodes E fl rows).ringMap.lookup a = some idx →
        (build_structured_output nodes E fl rows pt).account_ring_map.lookup a
          = some idx)) ∧
    (∀ (txs : List Txn) (pt : ℚ) (a : ℕ),
      a ∈ (analyzeFlags txs).cycles → a ∈ (analyzeFlags txs).fan_in →
      ∀ r ∈ (runPipeline txs pt).2.2.fraud_rings,
        (runPipeline txs pt).2.2.account_ring_map.lookup a
          = some r.ring_index →
        r.pattern_type = "cycle") := by
  constructor
  · intro nodes E fl rows pt a idx
    refine ⟨fun h => ?_, fun h => ?_, fun h => ?_⟩
    · show (buildState4 nodes E fl rows).ringMap.lookup a = some idx
      exact componentPhase_preserve (fanPhase_preserve (fanPhase_preserve h))
    · show (buildState4 nodes E fl rows).ringMap.lookup a = some idx
      exact componentPhase_preserve (fanPhase_preserve h)
    · show (buildState4 nodes E fl rows).ringMap.lookup a = some idx
      exact componentPhase_preserve h
  · intro txs pt a hcyc hfin r hr hlook
    clear hfin
    have hout : (runPipeline txs pt).2.2
        = build_structured_output (nodesOf txs) (edgesOf txs)
            (analyzeFlags txs)
            (assign_risk_scores (nodesOf txs) (analyzeFlags txs)) pt := rfl
    rw [hout] at hr hlook
    have hcyc' : a ∈ cyclesOf txs := hcyc
    obtain ⟨v, p, hfp, hap, hsub⟩ := cyclesOf_source hcyc'
    obtain ⟨w, hhd, hlast, hnd, hch, hlen, hcv⟩ := hfp
    have hpS : ∀ x ∈ p, x ∈ (nodesOf txs).filter
        (fun n => decide (n ∈ (analyzeFlags txs).cycles)) := by
      intro x hx
      rw [List.mem_filter, decide_eq_true_eq]
      constructor
      · rcases chainRev_mem_edge p hch (by omega) x hx with ⟨e, heE, hxe⟩
        have hends := edge_ends_mem_nodesOf (a := e.1) (b := e.2) (by
          rcases e with ⟨e1, e2⟩
          exact heE)
        rcases hxe with rfl | rfl
        · exact hends.1
        · exact hends.2
      · exact hsub x hx
    have haS : a ∈ (nodesOf txs).filter
        (fun n => decide (n ∈ (analyzeFlags txs).cycles)) := hpS a hap
    obtain ⟨c0, hc0, hac0⟩ := wccList_cover (E := edgesOf txs) haS
    have hclass := wccList_class hc0 hac0
    have hpc : ∀ z ∈ p, z ∈ c0 := by
      intro z hz
      rw [hclass z]
      exact wcomp_complete haS (chainRev_wreach hch hpS a hap z hz)
    have hbig : 2 ≤ c0.dedup.length := by
      have h1 : p.toFinset ⊆ c0.toFinset := by
        intro z hz
        rw [List.mem_toFinset] at hz ⊢
        exact hpc z hz
      have h2 := Finset.card_le_card h1
      rw [List.toFinset_card_of_nodup hnd] at h2
      rw [← List.card_toFinset]
      omega
    obtain ⟨idx, hlook1, r0, hr0, hr0i, hr0p⟩ :=
      compFold_claims (assign_risk_scores (nodesOf txs) (analyzeFlags txs))
        "cycle" (wccList (edgesOf txs) ((nodesOf txs).filter
          (fun n => decide (n ∈ (analyzeFlags txs).cycles))))
        emptyBuildState c0
        (wccList_disjoint (edgesOf txs) _) hc0 hac0 hbig
    have hlook1' : (buildState1 (nodesOf txs) (edgesOf txs)
        (analyzeFlags txs)
        (assign_risk_scores (nodesOf txs) (analyzeFlags txs))).ringMap.lookup a
          = some idx := hlook1
    have hr0' : r0 ∈ (buildState1 (nodesOf txs) (edgesOf txs)
        (analyzeFlags txs)
        (assign_risk_scores (nodesOf txs) (analyzeFlags txs))).rings := hr0
    have hinv1 := componentPhase_inv (edgesOf txs)
      (assign_risk_scores (nodesOf txs) (analyzeFlags txs)) "cycle" false
      ((nodesOf txs).filter (fun n => decide (n ∈ (analyzeFlags txs).cycles)))
      emptyBuildState
    have hidxle : idx ≤ (buildState1 (nodesOf txs) (edgesOf txs)
        (analyzeFlags txs)
        (assign_risk_scores (nodesOf txs) (analyzeFlags txs))).counter := by
      rcases hinv1.2 r0 hr0' with h | h
      · exact absurd h (List.not_mem_nil r0)
      · rw [← hr0i]
        exact h.2.2.1
    have hlookF : (build_structured_output (nodesOf txs) (edgesOf txs)
        (analyzeFlags txs)
        (assign_risk_scores (nodesOf txs) (analyzeFlags txs))
        pt).account_ring_map.lookup a = some idx := by
      show (buildState4 (nodesOf txs) (edgesOf txs) (analyzeFlags txs)
        (assign_risk_scores (nodesOf txs) (analyzeFlags txs))).ringMap.lookup a
          = some idx
      exact componentPhase_preserve (fanPhase_preserve
        (fanPhase_preserve hlook1'))
    have hval : r.ring_index = idx := by
      have h1 := hlook.symm.trans hlookF
      exact Option.some_inj.1 h1
    have hinv2 := fanPhase_inv (edgesOf txs)
      (assign_risk_scores (nodesOf txs) (analyzeFlags txs)) "fan_in" false
      (analyzeFlags txs).fan_in
      (buildState1 (nodesOf txs) (edgesOf txs) (analyzeFlags txs)
        (assign_risk_scores (nodesOf txs) (analyzeFlags txs)))
    have hinv3 := fanPhase_inv (edgesOf txs)
      (assign_risk_scores (nodesOf txs) (analyzeFlags txs)) "fan_out" true
      (analyzeFlags txs).fan_out
      (buildState2 (nodesOf txs) (edgesOf txs) (analyzeFlags txs)
        (assign_risk_scores (nodesOf txs) (analyzeFlags txs)))
    have hinv4 := componentPhase_inv (edgesOf txs)
      (assign_risk_scores (nodesOf txs) (analyzeFlags txs)) "shell_layering"
      true
      ((nodesOf txs).filter (fun n => decide (n ∈ (analyzeFlags txs).shells)))
      (buildState3 (nodesOf txs) (edgesOf txs) (analyzeFlags txs)
        (assign_risk_scores (nodesOf txs) (analyzeFlags txs)))
    have hb1eq : componentPhase (edgesOf txs)
        (assign_risk_scores (nodesOf txs) (analyzeFlags txs)) "cycle" false
        ((nodesOf txs).filter (fun n => decide (n ∈ (analyzeFlags txs).cycles)))
        emptyBuildState
        = buildState1 (nodesOf txs) (edgesOf txs) (analyzeFlags txs)
            (assign_risk_scores (nodesOf txs) (analyzeFlags txs)) := rfl
    have hb2eq : fanPhase (edgesOf txs)
        (assign_risk_scores (nodesOf txs) (analyzeFlags txs)) "fan_in" false
        (analyzeFlags txs).fan_in
        (buildState1 (nodesOf txs) (edgesOf txs) (analyzeFlags txs)
          (assign_risk_scores (nodesOf txs) (analyzeFlags txs)))
        = buildState2 (nodesOf txs) (edgesOf txs) (analyzeFlags txs)
            (assign_risk_scores (nodesOf txs) (analyzeFlags txs)) := rfl
    have hb3eq : fanPhase (edgesOf txs)
        (assign_risk_scores (nodesOf txs) (analyzeFlags txs)) "fan_out" true
        (analyzeFlags txs).fan_out
        (buildState2 (nodesOf txs) (edgesOf txs) (analyzeFlags txs)
          (assign_risk_scores (nodesOf txs) (analyzeFlags txs)))
        = buildState3 (nodesOf txs) (edgesOf txs) (analyzeFlags txs)
            (assign_risk_scores (nodesOf txs) (analyzeFlags txs)) := rfl
    have hb4eq : componentPhase (edgesOf txs)
        (assign_risk_scores (nodesOf txs) (analyzeFlags txs)) "shell_layering"
        true
        ((nodesOf txs).filter (fun n => decide (n ∈ (analyzeFlags txs).shells)))
        (buildState3 (nodesOf txs) (edgesOf txs) (analyzeFlags txs)
          (assign_risk_scores (nodesOf txs) (analyzeFlags txs)))
        = buildState4 (nodesOf txs) (edgesOf txs) (analyzeFlags txs)
            (assign_risk_scores (nodesOf txs) (analyzeFlags txs)) := rfl
    rw [hb1eq] at hinv1
    rw [hb2eq] at hinv2
    rw [hb3eq] at hinv3
    rw [hb4eq] at hinv4
    have hr4 : r ∈ (buildState4 (nodesOf txs) (edgesOf txs)
        (analyzeFlags txs)
        (assign_risk_scores (nodesOf txs) (analyzeFlags txs))).rings := hr
    rcases hinv4.2 r hr4 with hr3 | hnew
    · rcases hinv3.2 r hr3 with hr2 | hnew
      · rcases hinv2.2 r hr2 with hr1 | hnew
        · rcases hinv1.2 r hr1 with hempty | hc
          · exact absurd hempty (List.not_mem_nil r)
          · exact hc.1
        · exfalso
          have := hnew.2.1
          omega
      · exfalso
        have h23 := hinv2.1
        have := hnew.2.1
        omega
    · exfalso
      have h23 := hinv2.1
      have h34 := hinv3.1
      have := hnew.2.1
      omega

/-- C1 (counterexample to the claim as stated): for an arbitrary flag
set (not produced by `analyze_networks`) an account flagged in both
`cycles` and `fan_in` can end up mapped to a `fan_in` ring — here
account `5` is cycle-flagged but its cycle-induced component is the
singleton `{5}`, so phase 1 builds no ring and phase 2 claims it. -/
theorem c1_counterexample :
    5 ∈ (FlagSets.mk [5] [5] [] []).cycles ∧
    5 ∈ (FlagSets.mk [5] [5] [] []).fan_in ∧
    (build_structured_output [1, 5, 2] [(1, 5), (2, 5)]
      (FlagSets.mk [5] [5] [] []) [] 0).account_ring_map.lookup 5
        = some 1 ∧
    ∃ r ∈ (build_structured_output [1, 5, 2] [(1, 5), (2, 5)]
        (FlagSets.mk [5] [5] [] []) [] 0).fraud_rings,
      r.ring_index = 1 ∧ r.pattern_type = "fan_in" := by
  refine ⟨by decide, by decide, ?_, ?_⟩
  · simp [build_structured_output, buildState4, buildState3, buildState2,
      buildState1, componentPhase, fanPhase, componentStep, fanStep,
      fanCluster, mkRing, wccList, wccAux, wcomp, bfs, unbrs, successors,
      predecessors, sortNat, List.insertionSort, List.orderedInsert,
      mapWrite, dictSet, dictSetIfAbsent, List.lookup, emptyBuildState]
  · simp [build_structured_output, buildState4, buildState3, buildState2,
      buildState1, componentPhase, fanPhase, componentStep, fanStep,
      fanCluster, mkRing, wccList, wccAux, wcomp, bfs, unbrs, successors,
      predecessors, sortNat, List.insertionSort, List.orderedInsert,
      mapWrite, dictSet, dictSetIfAbsent, List.lookup, emptyBuildState]

/-- C1 witness: part one applied to a two-node cycle instance; part two
applied to the fixture `c1txs`, where account `5` is flagged `cycles`
and `fan_in` and its ring is the phase-1 cycle ring. -/
theorem c1_witness :
    (build_structured_output [1, 2] [(1, 2)] ⟨[1, 2], [], [], []⟩ []
        0).account_ring_map.lookup 1 = some 1 ∧
    5 ∈ (analyzeFlags c1txs).cycles ∧
    5 ∈ (analyzeFlags c1txs).fan_in ∧
    mkRing (assign_risk_scores (nodesOf c1txs) (analyzeFlags c1txs)) 1
        "cycle" [5, 6, 7] ∈ (runPipeline c1txs 0).2.2.fraud_rings ∧
    (runPipeline c1txs 0).2.2.account_ring_map.lookup 5
      = some (mkRing (assign_risk_scores (nodesOf c1txs)
          (analyzeFlags c1txs)) 1 "cycle" [5, 6, 7]).ring_index ∧
    (mkRing (assign_risk_scores (nodesOf c1txs) (analyzeFlags c1txs)) 1
        "cycle" [5, 6, 7]).pattern_type = "cycle" := by
  have h1 : (buildState1 [1, 2] [(1, 2)] ⟨[1, 2], [], [], []⟩
      []).ringMap.lookup 1 = some 1 := by
    simp [buildState1, componentPhase, componentStep, wccList, wccAux,
      wcomp, bfs, unbrs, successors, predecessors, emptyBuildState,
      sortNat, mapWrite, dictSet, dictSetIfAbsent, List.lookup,
      List.insertionSort, List.orderedInsert]
  have ha := (c1_ring_precedence_amended.1 [1, 2] [(1, 2)]
    ⟨[1, 2], [], [], []⟩ [] 0 1 1).1 h1
  have hcyc : 5 ∈ (analyzeFlags c1txs).cycles := by
    show 5 ∈ cycleScan (edgesOf c1txs) (nodesOf c1txs) []
    exact cycleScan_flag _ _ [] 5 (by decide)
      ⟨6, 7, by decide, by decide, by decide, by decide, by decide,
        by decide⟩
  have hfin : 5 ∈ (analyzeFlags c1txs).fan_in := by decide
  have hr : mkRing (assign_risk_scores (nodesOf c1txs)
      (analyzeFlags c1txs)) 1 "cycle" [5, 6, 7]
        ∈ (runPipeline c1txs 0).2.2.fraud_rings := by
    simp [runPipeline, runPipelineWith, analyzeFlags, analyzeFlagsWith,
      cyclesOf, cycleScan, dfsFrom, pushChildren, fanInSet, fanInFlag,
      fanOutSet, fanOutFlag, smurfHit, incoming, outgoing, tsLe,
      diffLe72, shellsFold, shellStep, shellCandList, shellInter,
      isShellCand, txCount, nodesOf, nodesAux, edgesOf, edgesAux, addNode,
      c1txs,
      List.replicate, build_structured_output, buildState4, buildState3,
      buildState2, buildState1, componentPhase, fanPhase, componentStep,
      fanStep, fanCluster, mkRing, wccList, wccAux, wcomp, bfs, unbrs,
      successors, predecessors, sortNat, List.insertionSort,
      List.orderedInsert, mapWrite, dictSet, dictSetIfAbsent,
      List.lookup, emptyBuildState]
  have hlook : (runPipeline c1txs 0).2.2.account_ring_map.lookup 5
      = some (mkRing (assign_risk_scores (nodesOf c1txs)
          (analyzeFlags c1txs)) 1 "cycle" [5, 6, 7]).ring_index := by
    simp [runPipeline, runPipelineWith, analyzeFlags, analyzeFlagsWith,
      cyclesOf, cycleScan, dfsFrom, pushChildren, fanInSet, fanInFlag,
      fanOutSet, fanOutFlag, smurfHit, incoming, outgoing, tsLe,
      diffLe72, shellsFold, shellStep, shellCandList, shellInter,
      isShellCand, txCount, nodesOf, nodesAux, edgesOf, edgesAux, addNode,
      c1txs,
      List.replicate, build_structured_output, buildState4, buildState3,
      buildState2, buildState1, componentPhase, fanPhase, componentStep,
      fanStep, fanCluster, mkRing, wccList, wccAux, wcomp, bfs, unbrs,
      successors, predecessors, sortNat, List.insertionSort,
      List.orderedInsert, mapWrite, dictSet, dictSetIfAbsent,
      List.lookup, emptyBuildState]
  exact ⟨ha, hcyc, hfin, hr, hlook,
    c1_ring_precedence_amended.2 c1txs 0 5 hcyc hfin _ hr hlook⟩

/-! ## Claim C2: risk-score invariant -/

/-- C2: for every flag set and node, the score of `assign_risk_scores`
equals `min(100, 40·[cycle] + 35·[fan_in] + 35·[fan_out] + 25·[shell])`,
hence lies in `[0,100]`; `risk_level` is `"High"` iff `score ≥ 40`,
`"Medium"` iff `0 < score < 40`, `"Low"` iff `score = 0`; and a node
in no flag set scores `0` with reasons `"Normal"`. -/
theorem c2_risk_score_invariant (fl : FlagSets) (n : ℕ) :
    (riskRow fl n).score =
      min 100 ((if n ∈ fl.cycles then 40 else 0) +
        (if n ∈ fl.fan_in then 35 else 0) +
        (if n ∈ fl.fan_out then 35 else 0) +
        (if n ∈ fl.shells then 25 else 0)) ∧
    (riskRow fl n).score ≤ 100 ∧
    ((riskRow fl n).risk_level = "High" ↔ 40 ≤ (riskRow fl n).score) ∧
    ((riskRow fl n).risk_level = "Medium" ↔
      0 < (riskRow fl n).score ∧ (riskRow fl n).score < 40) ∧
    ((riskRow fl n).risk_level = "Low" ↔ (riskRow fl n).score = 0) ∧
    (n ∉ fl.cycles → n ∉ fl.fan_in → n ∉ fl.fan_out → n ∉ fl.shells →
      (riskRow fl n).score = 0 ∧ (riskRow fl n).reasons = "Normal") := by
  unfold riskRow rawScore reasonList
  by_cases h1 : n ∈ fl.cycles <;> by_cases h2 : n ∈ fl.fan_in <;>
    by_cases h3 : n ∈ fl.fan_out <;> by_cases h4 : n ∈ fl.shells <;>
      simp [h1, h2, h3, h4, min_comm]

/-- Witness for C2 at a concrete unflagged node. -/
theorem c2_witness :
    (riskRow ⟨[], [], [], []⟩ 0).score = 0 ∧
    (riskRow ⟨[], [], [], []⟩ 0).reasons = "Normal" :=
  (c2_risk_score_invariant ⟨[], [], [], []⟩ 0).2.2.2.2.2
    (by simp) (by simp) (by simp) (by simp)

/-! ## Claim C7: empty-input tolerance -/

/-- C7: on an empty transaction set, the pipeline returns a graph with
no nodes and no edges, four empty flag sets, an empty risk table, no
rings, no suspicious accounts, no ring assignments, and an all-zero
summary. -/
theorem c7_empty_input :
    nodesOf [] = [] ∧ edgesOf [] = [] ∧
    analyzeFlags [] = ⟨[], [], [], []⟩ ∧
    assign_risk_scores (nodesOf []) (analyzeFlags []) = [] ∧
    (runPipeline [] 0).2.2.suspicious_accounts = [] ∧
    (runPipeline [] 0).2.2.fraud_rings = [] ∧
    (runPipeline [] 0).2.2.account_ring_map = [] ∧
    (runPipeline [] 0).2.2.summary.total_accounts_analyzed = 0 ∧
    (runPipeline [] 0).2.2.summary.suspicious_accounts_flagged = 0 ∧
    (runPipeline [] 0).2.2.summary.fraud_rings_detected = 0 := by
  decide

/-! ## Claim C8: isomorphism query with an absent target -/

/-- C8: when the target node is not in the graph,
`find_structural_clones` returns empty match sets and raises no error
(the embedding is a total function). -/
theorem c8_absent_target (nodes : List ℕ) (E : List (ℕ × ℕ))
    (t hops : ℕ) (h : t ∉ nodes) :
    find_structural_clones nodes E t hops = (∅, ∅) := by
  simp [find_structural_clones, h]

/-- Witness for C8 on a concrete graph and absent target. -/
theorem c8_witness :
    (5 : ℕ) ∉ [0, 1] ∧
    find_structural_clones [0, 1] [(0, 1)] 5 1 = (∅, ∅) :=
  ⟨by decide, c8_absent_target [0, 1] [(0, 1)] 5 1 (by decide)⟩

end Ozark
